import Mathlib

/-!
Verification of the core optimizers of the GS2_DP_MOH repository
(src/gs_challenge1.py, src/gs_challenge3.py, src/gs_challenge5.py,
src/gs_graph_validation.py, src/gs_config.py) against its
natural-language specification.

The Python code is shallowly embedded: the skill database is an
association list mirroring the Python dict (insertion order preserved),
Python dicts used as DP tables become association lists whose update
semantics mirror dict assignment (update-in-place keeps the position of
an existing key, a new key is appended at the end, exactly like CPython
dict insertion order), Python `frozenset` becomes `Finset String`,
float arithmetic on the small literal constants of the repository
becomes exact `ℚ` arithmetic, and code that can raise (`KeyError`)
returns `Except String`.  Loops whose termination is not structural
(worklist closure, Kahn's queue, recursive DFS) take an explicit fuel
argument chosen to dominate the number of iterations the Python loop
can perform on the same input; invariance theorems are proved for every
fuel, so the choice of bound is irrelevant to the stated properties.
-/

/-- One skill record of `SKILLS_DATABASE` in gs_config.py:
`{'Nome': str, 'Valor': int, 'Tempo': int, 'Complexidade': int, 'Pre_Reqs': [...]}`
(the `Categoria` field is never read by the optimizers and is omitted). -/
structure Skill where
  nome : String
  valor : ℕ
  tempo : ℕ
  complexidade : ℕ
  preReqs : List String
deriving Repr, DecidableEq

/-- The skills database: a Python dict from identifier to skill record,
modelled as an association list in insertion order. -/
abbrev SkillDB := List (String × Skill)

/-- `skills_db[s]` — dict lookup.  The optimizers are only ever run on
identifiers present in the database (GraphValidator gates the data), so
the missing-key case, which raises `KeyError` in Python, is mapped to a
junk record with empty fields. -/
def dbGet (db : SkillDB) (s : String) : Skill :=
  (db.lookup s).getD ⟨"", 0, 0, 0, []⟩

/-- `skills_db[s]['Valor']`. -/
def valorOf (db : SkillDB) (s : String) : ℕ := (dbGet db s).valor

/-- `skills_db[s]['Tempo']`. -/
def tempoOf (db : SkillDB) (s : String) : ℕ := (dbGet db s).tempo

/-- `skills_db[s]['Complexidade']`. -/
def complexidadeOf (db : SkillDB) (s : String) : ℕ := (dbGet db s).complexidade

/-- `skills_db[s]['Pre_Reqs']`. -/
def preReqsOf (db : SkillDB) (s : String) : List String := (dbGet db s).preReqs

/-- `sum(skills_db[s]['Valor'] for s in l)`. -/
def sumValor (db : SkillDB) (l : List String) : ℕ := (l.map (valorOf db)).sum

/-- `sum(skills_db[s]['Tempo'] for s in l)`. -/
def sumTempo (db : SkillDB) (l : List String) : ℕ := (l.map (tempoOf db)).sum

/-- `sum(skills_db[s]['Complexidade'] for s in l)`. -/
def sumComplexidade (db : SkillDB) (l : List String) : ℕ :=
  (l.map (complexidadeOf db)).sum

/-- The literal `SKILLS_DATABASE` of gs_config.py (18 skills). -/
def SKILLS_DATABASE : SkillDB :=
  [ ("H1", ⟨"Lógica de Programação", 10, 40, 2, []⟩)
  , ("H2", ⟨"Estruturas de Dados", 12, 50, 3, []⟩)
  , ("H3", ⟨"Algoritmos", 15, 60, 4, []⟩)
  , ("H4", ⟨"Banco de Dados", 11, 45, 3, []⟩)
  , ("H5", ⟨"Redes", 9, 35, 2, []⟩)
  , ("H6", ⟨"Sistemas Operacionais", 10, 40, 3, []⟩)
  , ("H7", ⟨"Engenharia de Software", 13, 55, 4, []⟩)
  , ("S1", ⟨"Python Avançado", 18, 70, 5, ["H1", "H2"]⟩)
  , ("S2", ⟨"Java Enterprise", 20, 80, 6, ["H1", "H2", "H7"]⟩)
  , ("S3", ⟨"React", 22, 65, 5, ["H1"]⟩)
  , ("S4", ⟨"Machine Learning", 30, 100, 8, ["H2", "H3", "S1"]⟩)
  , ("S5", ⟨"Cybersecurity", 25, 90, 7, ["H5", "H6"]⟩)
  , ("S6", ⟨"IA Generativa", 40, 120, 9, ["S4"]⟩)
  , ("S7", ⟨"Cloud Architecture", 35, 110, 8, ["H4", "H5", "H6"]⟩)
  , ("S8", ⟨"Microservices", 28, 85, 7, ["S2", "H4"]⟩)
  , ("S9", ⟨"DevOps", 26, 75, 6, ["H6", "H7"]⟩)
  , ("H11", ⟨"Big Data", 32, 95, 8, ["H4", "S1"]⟩)
  , ("H12", ⟨"Blockchain", 29, 88, 7, ["H4", "S5"]⟩)
  ]

/-- `BASIC_SKILLS` of gs_config.py. -/
def BASIC_SKILLS : List String := ["H1", "H2", "H3", "H4", "H5", "H6", "H7"]

/-- `MIN_ADAPTABILITY` of gs_config.py. -/
def MIN_ADAPTABILITY : ℕ := 15

/-- `GLOBAL_SEED` of gs_config.py. -/
def GLOBAL_SEED : ℕ := 42

/-! ## Desafio 3 — ImprovedAdaptabilityOptimizer (gs_challenge3.py) -/

/-- Result record returned by the three solvers of gs_challenge3.py:
`{'algorithm', 'selected', 'total_value', 'total_time', 'num_skills'}`. -/
structure SubsetResult where
  algorithm : String
  selected : List String
  total_value : ℕ
  total_time : ℕ
  num_skills : ℕ
deriving Repr, DecidableEq

/-- The sort key of `greedy_solution`:
`skills_db[s]['Valor'] / skills_db[s]['Tempo']` (float division, modelled
exactly in `ℚ`). -/
def scoreVT (db : SkillDB) (s : String) : ℚ :=
  (valorOf db s : ℚ) / (tempoOf db s : ℚ)

/-- `sorted(basic_skills, key=V/T, reverse=True)` — Python's stable sort in
descending key order: `a` stays before `b` whenever `score b ≤ score a`.
Any stable sort computes the same list as CPython's stable sort, so the
structurally recursive insertion sort is used (it reduces in the kernel). -/
def sortedByScore (db : SkillDB) (basic : List String) : List String :=
  basic.insertionSort (fun a b => scoreVT db b ≤ scoreVT db a)

/-- The accumulation loop of `greedy_solution` over the sorted candidates:
take each skill; as soon as the running value would meet the threshold,
take that skill too and stop.  Returns (selected, total_value, total_time). -/
def greedyLoop (db : SkillDB) (minAdapt : ℕ) :
    List String → List String → ℕ → ℕ → List String × ℕ × ℕ
  | [], sel, tv, tt => (sel, tv, tt)
  | s :: rest, sel, tv, tt =>
    if minAdapt ≤ tv + valorOf db s then
      (sel ++ [s], tv + valorOf db s, tt + tempoOf db s)
    else
      greedyLoop db minAdapt rest (sel ++ [s]) (tv + valorOf db s) (tt + tempoOf db s)

/-- `ImprovedAdaptabilityOptimizer.greedy_solution`. -/
def greedy_solution (db : SkillDB) (basic : List String) (minAdapt : ℕ) :
    SubsetResult :=
  let r := greedyLoop db minAdapt (sortedByScore db basic) [] 0 0
  ⟨"Guloso (V/T)", r.1, r.2.1, r.2.2, r.1.length⟩

/-- One entry of the DP dict of `optimal_solution_dp`:
key `value`, payload `(minimum time, skills list)`. -/
abbrev DPEntry3 := ℕ × ℕ × List String

/-- The DP dict, as an association list in dict insertion order. -/
abbrev DPTable3 := List DPEntry3

/-- `value in dp` / `dp[value]` — first (unique) entry with the given key. -/
def dpLookup3 : DPTable3 → ℕ → Option (ℕ × List String)
  | [], _ => none
  | (v, t, sk) :: rest, v' => if v = v' then some (t, sk) else dpLookup3 rest v'

/-- `dp[value] = (time, skills)` — dict assignment: replaces an existing
entry in place, otherwise appends a new entry at the end. -/
def dpUpdate3 : DPTable3 → ℕ → ℕ → List String → DPTable3
  | [], v, t, sk => [(v, t, sk)]
  | (v', t', sk') :: rest, v, t, sk =>
    if v' = v then (v, t, sk) :: rest else (v', t', sk') :: dpUpdate3 rest v t sk

/-- The relaxation performed for one existing DP entry when processing one
candidate skill: `new_dp[v + valor] = (t + tempo, sk + [s])` if the key is
absent or the new time is strictly smaller. -/
def dpRelax (db : SkillDB) (s : String) (acc : DPTable3) (e : DPEntry3) :
    DPTable3 :=
  let nv := e.1 + valorOf db s
  let nt := e.2.1 + tempoOf db s
  let nsk := e.2.2 ++ [s]
  match dpLookup3 acc nv with
  | none => dpUpdate3 acc nv nt nsk
  | some (t0, _) => if nt < t0 then dpUpdate3 acc nv nt nsk else acc

/-- Processing one candidate skill: `new_dp = dp.copy()`, then relax every
entry of the old dict into the copy. -/
def dpStep3 (db : SkillDB) (dp : DPTable3) (s : String) : DPTable3 :=
  dp.foldl (dpRelax db s) dp

/-- The full DP loop of `optimal_solution_dp`, starting from `{0: (0, [])}`. -/
def runDP3 (db : SkillDB) (basic : List String) : DPTable3 :=
  basic.foldl (dpStep3 db) [(0, 0, [])]

/-- Generic minimizing scan shared by the final loops of
`optimal_solution_dp` and `optimal_solution_bruteforce`: keep the first
qualifying element of strictly smallest measure (`best_time = inf` start,
update on `measure < best_time`). -/
def minFoldStep (qual : α → Bool) (mea : α → ℕ) (acc : Option α) (x : α) :
    Option α :=
  if qual x then
    match acc with
    | none => some x
    | some b => if mea x < mea b then some x else acc
  else acc

/-- The fold of the two minimizing scans. -/
def minFold (qual : α → Bool) (mea : α → ℕ) (l : List α)
    (best : Option α) : Option α :=
  l.foldl (minFoldStep qual mea) best

/-- The final scan of `optimal_solution_dp`: among entries whose value
level meets the threshold, the one of minimum time (first found). -/
def dpScan (minAdapt : ℕ) (dp : DPTable3) : Option DPEntry3 :=
  minFold (fun e => decide (minAdapt ≤ e.1)) (fun e => e.2.1) dp none

/-- `ImprovedAdaptabilityOptimizer.optimal_solution_dp`.  Returns `none`
when no value level reaches the threshold (the `best_solution is None`
correction in the source). -/
def optimal_solution_dp (db : SkillDB) (basic : List String) (minAdapt : ℕ) :
    Option SubsetResult :=
  match dpScan minAdapt (runDP3 db basic) with
  | none => none
  | some (v, t, sk) => some ⟨"Ótimo (DP)", sk, v, t, sk.length⟩

/-- `itertools.combinations` over all sizes `1 .. len(basic)`, as
enumerated by `optimal_solution_bruteforce`.  The enumeration order of
same-size combinations differs from CPython's, which is irrelevant: the
scan below keeps a minimum over the collection. -/
def bfCombos (basic : List String) : List (List String) :=
  (List.range' 1 basic.length).flatMap (fun k => List.sublistsLen k basic)

/-- The scan of `optimal_solution_bruteforce`: first subset meeting the
threshold with strictly smallest total time. -/
def bfScan (db : SkillDB) (minAdapt : ℕ) (combos : List (List String)) :
    Option (List String) :=
  minFold (fun sk => decide (minAdapt ≤ sumValor db sk)) (sumTempo db) combos none

/-- `ImprovedAdaptabilityOptimizer.optimal_solution_bruteforce`. -/
def optimal_solution_bruteforce (db : SkillDB) (basic : List String)
    (minAdapt : ℕ) : Option SubsetResult :=
  match bfScan db minAdapt (bfCombos basic) with
  | none => none
  | some sk =>
    some ⟨"Ótimo (Força Bruta)", sk, sumValor db sk, sumTempo db sk, sk.length⟩

/-- The literal counterexample database of `demonstrate_counterexample`:
`A(value=16,time=10)`, `B(value=12,time=7)`, `C(value=8,time=4)`. -/
def COUNTEREXAMPLE_DB : SkillDB :=
  [ ("A", ⟨"A", 16, 10, 0, []⟩)
  , ("B", ⟨"B", 12, 7, 0, []⟩)
  , ("C", ⟨"C", 8, 4, 0, []⟩)
  ]

theorem sortedByScore_counterexample :
    sortedByScore COUNTEREXAMPLE_DB ["A", "B", "C"] = ["C", "B", "A"] := by
  have vA : valorOf COUNTEREXAMPLE_DB "A" = 16 := rfl
  have vB : valorOf COUNTEREXAMPLE_DB "B" = 12 := rfl
  have vC : valorOf COUNTEREXAMPLE_DB "C" = 8 := rfl
  have tA : tempoOf COUNTEREXAMPLE_DB "A" = 10 := rfl
  have tB : tempoOf COUNTEREXAMPLE_DB "B" = 7 := rfl
  have tC : tempoOf COUNTEREXAMPLE_DB "C" = 4 := rfl
  norm_num [sortedByScore, List.insertionSort, List.orderedInsert, scoreVT,
    vA, vB, vC, tA, tB, tC]

example :
    (greedy_solution COUNTEREXAMPLE_DB ["A", "B", "C"] 16).selected
      = ["C", "B"] := by
  simp only [greedy_solution, sortedByScore_counterexample]
  decide

example :
    optimal_solution_dp COUNTEREXAMPLE_DB ["A", "B", "C"] 16
      = some ⟨"Ótimo (DP)", ["A"], 16, 10, 1⟩ := by decide

example :
    optimal_solution_bruteforce COUNTEREXAMPLE_DB ["A", "B", "C"] 16
      = some ⟨"Ótimo (Força Bruta)", ["A"], 16, 10, 1⟩ := by decide

example : optimal_solution_dp COUNTEREXAMPLE_DB [] 0 = some ⟨"Ótimo (DP)", [], 0, 0, 0⟩ := by decide

example : optimal_solution_bruteforce COUNTEREXAMPLE_DB [] 0 = none := by decide

/-! ## Generic fold lemmas -/

/-- A predicate preserved by every step of a left fold holds of the result. -/
theorem foldl_inv {α β : Type _} {P : β → Prop} (f : β → α → β) :
    ∀ (l : List α) (b : β), P b → (∀ b' a, a ∈ l → P b' → P (f b' a)) →
      P (l.foldl f b) := by
  intro l
  induction l with
  | nil => intro b h0 _; exact h0
  | cons x xs ih =>
    intro b h0 hstep
    exact ih _ (hstep b x (by simp) h0)
      (fun b' a ha h => hstep b' a (by simp [ha]) h)

theorem minFold_cons (q : α → Bool) (m : α → ℕ) (x : α) (l : List α)
    (best : Option α) :
    minFold q m (x :: l) best = minFold q m l (minFoldStep q m best x) := rfl

theorem minFoldStep_cases (q : α → Bool) (m : α → ℕ) (best : Option α) (x : α) :
    minFoldStep q m best x = best ∨
      (minFoldStep q m best x = some x ∧ q x = true) := by
  by_cases hq : q x = true
  · cases best with
    | none => exact Or.inr ⟨by simp [minFoldStep, hq], hq⟩
    | some b =>
      by_cases hm : m x < m b
      · exact Or.inr ⟨by simp [minFoldStep, hq, hm], hq⟩
      · exact Or.inl (by simp [minFoldStep, hq, hm])
  · exact Or.inl (by simp [minFoldStep, hq])

theorem minFold_some_mem {α : Type _} (q : α → Bool) (m : α → ℕ) :
    ∀ (l : List α) (best : Option α) (e : α),
      minFold q m l best = some e → (e ∈ l ∧ q e = true) ∨ best = some e := by
  intro l
  induction l with
  | nil => intro best e h; exact Or.inr h
  | cons x xs ih =>
    intro best e h
    rw [minFold_cons] at h
    rcases ih _ e h with h' | h'
    · exact Or.inl ⟨List.mem_cons_of_mem _ h'.1, h'.2⟩
    · rcases minFoldStep_cases q m best x with hc | hc
      · exact Or.inr (hc ▸ h')
      · rw [hc.1] at h'
        obtain rfl := Option.some_inj.mp h'.symm
        exact Or.inl ⟨List.mem_cons_self _ _, hc.2⟩

theorem minFold_none {α : Type _} (q : α → Bool) (m : α → ℕ) :
    ∀ (l : List α) (best : Option α),
      minFold q m l best = none → best = none ∧ ∀ e ∈ l, q e = false := by
  intro l
  induction l with
  | nil => intro best h; exact ⟨h, by simp⟩
  | cons x xs ih =>
    intro best h
    rw [minFold_cons] at h
    obtain ⟨hstep, hrest⟩ := ih _ h
    have hx : minFoldStep q m best x = none := hstep
    by_cases hq : q x = true
    · exfalso
      cases best with
      | none => simp [minFoldStep, hq] at hx
      | some b => by_cases hm : m x < m b <;> simp [minFoldStep, hq, hm] at hx
    · simp only [Bool.not_eq_true] at hq
      rw [show minFoldStep q m best x = best by simp [minFoldStep, hq]] at hx
      refine ⟨hx, ?_⟩
      intro e he
      rcases List.mem_cons.mp he with rfl | he'
      · exact hq
      · exact hrest e he'

theorem minFold_id_of_no_qual {α : Type _} (q : α → Bool) (m : α → ℕ) :
    ∀ (l : List α) (best : Option α),
      (∀ e ∈ l, q e = false) → minFold q m l best = best := by
  intro l
  induction l with
  | nil => intro best _; rfl
  | cons x xs ih =>
    intro best hq
    have hx : q x = false := hq x (by simp)
    rw [minFold_cons, show minFoldStep q m best x = best by simp [minFoldStep, hx]]
    exact ih best (fun e he => hq e (by simp [he]))

theorem minFold_keeps {α : Type _} (q : α → Bool) (m : α → ℕ) :
    ∀ (l : List α) (b : α),
      ∃ e, minFold q m l (some b) = some e ∧ m e ≤ m b := by
  intro l
  induction l with
  | nil => intro b; exact ⟨b, rfl, le_refl _⟩
  | cons x xs ih =>
    intro b
    rw [minFold_cons]
    by_cases hq : q x = true
    · by_cases hm : m x < m b
      · rw [show minFoldStep q m (some b) x = some x by simp [minFoldStep, hq, hm]]
        obtain ⟨e, he, hle⟩ := ih x
        exact ⟨e, he, hle.trans hm.le⟩
      · rw [show minFoldStep q m (some b) x = some b by simp [minFoldStep, hq, hm]]
        exact ih b
    · rw [show minFoldStep q m (some b) x = some b by simp [minFoldStep, hq]]
      exact ih b

theorem minFold_min {α : Type _} (q : α → Bool) (m : α → ℕ) :
    ∀ (l : List α) (best : Option α) (x : α), x ∈ l → q x = true →
      ∃ e, minFold q m l best = some e ∧ m e ≤ m x := by
  intro l
  induction l with
  | nil => intro best x hx; exact absurd hx (by simp)
  | cons y ys ih =>
    intro best x hx hq
    rw [minFold_cons]
    rcases List.mem_cons.mp hx with rfl | hx'
    · cases best with
      | none =>
        rw [show minFoldStep q m none x = some x by simp [minFoldStep, hq]]
        exact minFold_keeps q m ys x
      | some b =>
        by_cases hm : m x < m b
        · rw [show minFoldStep q m (some b) x = some x by
            simp [minFoldStep, hq, hm]]
          exact minFold_keeps q m ys x
        · rw [show minFoldStep q m (some b) x = some b by
            simp [minFoldStep, hq, hm]]
          obtain ⟨e, he, hle⟩ := minFold_keeps q m ys b
          exact ⟨e, he, hle.trans (not_lt.mp hm)⟩
    · exact ih _ x hx' hq

/-! ## Challenge-3 DP table lemmas -/

theorem dpLookup3_mem : ∀ (dp : DPTable3) (v t : ℕ) (sk : List String),
    dpLookup3 dp v = some (t, sk) → (v, t, sk) ∈ dp := by
  intro dp
  induction dp with
  | nil => intro v t sk h; simp [dpLookup3] at h
  | cons e rest ih =>
    intro v t sk h
    obtain ⟨v', t', sk'⟩ := e
    by_cases hv : v' = v
    · subst hv
      simp only [dpLookup3, if_true] at h
      obtain ⟨rfl, rfl⟩ := Prod.mk.injEq .. ▸ Option.some_inj.mp h
      exact List.mem_cons_self _ _
    · simp only [dpLookup3, hv, if_false] at h
      exact List.mem_cons_of_mem _ (ih v t sk h)

theorem dpUpdate3_mem : ∀ (dp : DPTable3) (v t : ℕ) (sk : List String),
    ∀ e ∈ dpUpdate3 dp v t sk, e ∈ dp ∨ e = (v, t, sk) := by
  intro dp
  induction dp with
  | nil => intro v t sk e he; simp [dpUpdate3] at he; exact Or.inr he
  | cons x rest ih =>
    intro v t sk e he
    obtain ⟨v', t', sk'⟩ := x
    by_cases hv : v' = v
    · simp only [dpUpdate3, hv, if_true] at he
      rcases List.mem_cons.mp he with rfl | he'
      · exact Or.inr rfl
      · exact Or.inl (List.mem_cons_of_mem _ he')
    · simp only [dpUpdate3, hv, if_false] at he
      rcases List.mem_cons.mp he with rfl | he'
      · exact Or.inl (List.mem_cons_self _ _)
      · rcases ih v t sk e he' with h | h
        · exact Or.inl (List.mem_cons_of_mem _ h)
        · exact Or.inr h

theorem dpUpdate3_lookup_self : ∀ (dp : DPTable3) (v t : ℕ) (sk : List String),
    dpLookup3 (dpUpdate3 dp v t sk) v = some (t, sk) := by
  intro dp
  induction dp with
  | nil => intro v t sk; simp [dpUpdate3, dpLookup3]
  | cons x rest ih =>
    intro v t sk
    obtain ⟨v', t', sk'⟩ := x
    by_cases hv : v' = v
    · simp [dpUpdate3, hv, dpLookup3]
    · simp [dpUpdate3, hv, dpLookup3, ih]

theorem dpUpdate3_lookup_other : ∀ (dp : DPTable3) (v t : ℕ) (sk : List String)
    (w : ℕ), w ≠ v → dpLookup3 (dpUpdate3 dp v t sk) w = dpLookup3 dp w := by
  intro dp
  induction dp with
  | nil => intro v t sk w hw; simp [dpUpdate3, dpLookup3, Ne.symm hw]
  | cons x rest ih =>
    intro v t sk w hw
    obtain ⟨v', t', sk'⟩ := x
    by_cases hv : v' = v
    · subst hv
      simp [dpUpdate3, dpLookup3, Ne.symm hw]
    · simp only [dpUpdate3, hv, if_false]
      by_cases hw' : v' = w
      · subst hw'
        simp [dpLookup3]
      · simp [dpLookup3, hw', ih v t sk w hw]

theorem dpRelax_def (db : SkillDB) (s : String) (acc : DPTable3)
    (e0 : DPEntry3) :
    dpRelax db s acc e0 =
      (match dpLookup3 acc (e0.1 + valorOf db s) with
       | none => dpUpdate3 acc (e0.1 + valorOf db s)
           (e0.2.1 + tempoOf db s) (e0.2.2 ++ [s])
       | some (t0, _) =>
         if e0.2.1 + tempoOf db s < t0 then
           dpUpdate3 acc (e0.1 + valorOf db s)
             (e0.2.1 + tempoOf db s) (e0.2.2 ++ [s])
         else acc) := rfl

theorem dpRelax_none_eq (db : SkillDB) (s : String) (acc : DPTable3)
    (e0 : DPEntry3) (h : dpLookup3 acc (e0.1 + valorOf db s) = none) :
    dpRelax db s acc e0 = dpUpdate3 acc (e0.1 + valorOf db s)
      (e0.2.1 + tempoOf db s) (e0.2.2 ++ [s]) := by
  simp [dpRelax_def, h]

theorem dpRelax_lt_eq (db : SkillDB) (s : String) (acc : DPTable3)
    (e0 : DPEntry3) (t0 : ℕ) (sk0 : List String)
    (h : dpLookup3 acc (e0.1 + valorOf db s) = some (t0, sk0))
    (hm : e0.2.1 + tempoOf db s < t0) :
    dpRelax db s acc e0 = dpUpdate3 acc (e0.1 + valorOf db s)
      (e0.2.1 + tempoOf db s) (e0.2.2 ++ [s]) := by
  simp [dpRelax_def, h, hm]

theorem dpRelax_ge_eq (db : SkillDB) (s : String) (acc : DPTable3)
    (e0 : DPEntry3) (t0 : ℕ) (sk0 : List String)
    (h : dpLookup3 acc (e0.1 + valorOf db s) = some (t0, sk0))
    (hm : ¬ e0.2.1 + tempoOf db s < t0) :
    dpRelax db s acc e0 = acc := by
  simp [dpRelax_def, h, hm]

theorem dpRelax_mem (db : SkillDB) (s : String) (acc : DPTable3)
    (e0 : DPEntry3) :
    ∀ x ∈ dpRelax db s acc e0, x ∈ acc ∨
      x = (e0.1 + valorOf db s, e0.2.1 + tempoOf db s, e0.2.2 ++ [s]) := by
  intro x hx
  rcases hlk : dpLookup3 acc (e0.1 + valorOf db s) with _ | ⟨t0, sk0⟩
  · rw [dpRelax_none_eq db s acc e0 hlk] at hx
    exact dpUpdate3_mem acc _ _ _ x hx
  · by_cases hm : e0.2.1 + tempoOf db s < t0
    · rw [dpRelax_lt_eq db s acc e0 t0 sk0 hlk hm] at hx
      exact dpUpdate3_mem acc _ _ _ x hx
    · rw [dpRelax_ge_eq db s acc e0 t0 sk0 hlk hm] at hx
      exact Or.inl hx

theorem dpRelax_mono (db : SkillDB) (s : String) (acc : DPTable3)
    (e0 : DPEntry3) (v t : ℕ) (sk : List String)
    (h : dpLookup3 acc v = some (t, sk)) :
    ∃ t' sk', dpLookup3 (dpRelax db s acc e0) v = some (t', sk') ∧ t' ≤ t := by
  by_cases hv : e0.1 + valorOf db s = v
  · subst hv
    by_cases hm : e0.2.1 + tempoOf db s < t
    · rw [dpRelax_lt_eq db s acc e0 t sk h hm]
      exact ⟨_, _, dpUpdate3_lookup_self acc _ _ _, hm.le⟩
    · rw [dpRelax_ge_eq db s acc e0 t sk h hm]
      exact ⟨t, sk, h, le_refl _⟩
  · rcases hlk : dpLookup3 acc (e0.1 + valorOf db s) with _ | ⟨t0, sk0⟩
    · rw [dpRelax_none_eq db s acc e0 hlk,
        dpUpdate3_lookup_other acc _ _ _ v (fun hh => hv hh.symm)]
      exact ⟨t, sk, h, le_refl _⟩
    · by_cases hm : e0.2.1 + tempoOf db s < t0
      · rw [dpRelax_lt_eq db s acc e0 t0 sk0 hlk hm,
          dpUpdate3_lookup_other acc _ _ _ v (fun hh => hv hh.symm)]
        exact ⟨t, sk, h, le_refl _⟩
      · rw [dpRelax_ge_eq db s acc e0 t0 sk0 hlk hm]
        exact ⟨t, sk, h, le_refl _⟩

theorem dpRelax_candidate (db : SkillDB) (s : String) (acc : DPTable3)
    (e0 : DPEntry3) :
    ∃ t' sk', dpLookup3 (dpRelax db s acc e0) (e0.1 + valorOf db s)
        = some (t', sk') ∧ t' ≤ e0.2.1 + tempoOf db s := by
  rcases hlk : dpLookup3 acc (e0.1 + valorOf db s) with _ | ⟨t0, sk0⟩
  · rw [dpRelax_none_eq db s acc e0 hlk]
    exact ⟨_, _, dpUpdate3_lookup_self acc _ _ _, le_refl _⟩
  · by_cases hm : e0.2.1 + tempoOf db s < t0
    · rw [dpRelax_lt_eq db s acc e0 t0 sk0 hlk hm]
      exact ⟨_, _, dpUpdate3_lookup_self acc _ _ _, le_refl _⟩
    · rw [dpRelax_ge_eq db s acc e0 t0 sk0 hlk hm]
      exact ⟨t0, sk0, hlk, not_lt.mp hm⟩

theorem foldl_dpRelax_mono (db : SkillDB) (s : String) :
    ∀ (entries : List DPEntry3) (acc : DPTable3) (v t : ℕ) (sk : List String),
      dpLookup3 acc v = some (t, sk) →
      ∃ t' sk', dpLookup3 (entries.foldl (dpRelax db s) acc) v = some (t', sk')
        ∧ t' ≤ t := by
  intro entries
  induction entries with
  | nil => intro acc v t sk h; exact ⟨t, sk, h, le_refl _⟩
  | cons e es ih =>
    intro acc v t sk h
    obtain ⟨t1, sk1, h1, hle1⟩ := dpRelax_mono db s acc e v t sk h
    obtain ⟨t', sk', h', hle'⟩ := ih (dpRelax db s acc e) v t1 sk1 h1
    exact ⟨t', sk', h', hle'.trans hle1⟩

theorem foldl_dpRelax_processes (db : SkillDB) (s : String) :
    ∀ (entries : List DPEntry3) (acc : DPTable3) (e0 : DPEntry3),
      e0 ∈ entries →
      ∃ t' sk', dpLookup3 (entries.foldl (dpRelax db s) acc)
          (e0.1 + valorOf db s) = some (t', sk')
        ∧ t' ≤ e0.2.1 + tempoOf db s := by
  intro entries
  induction entries with
  | nil => intro acc e0 h; exact absurd h (by simp)
  | cons e es ih =>
    intro acc e0 h
    rcases List.mem_cons.mp h with rfl | h'
    · obtain ⟨t1, sk1, h1, hle1⟩ := dpRelax_candidate db s acc e0
      obtain ⟨t', sk', h', hle'⟩ :=
        foldl_dpRelax_mono db s es (dpRelax db s acc e0) _ t1 sk1 h1
      exact ⟨t', sk', h', hle'.trans hle1⟩
    · exact ih (dpRelax db s acc e) e0 h'

theorem foldl_dpRelax_mem (db : SkillDB) (s : String) :
    ∀ (entries : List DPEntry3) (acc : DPTable3),
      ∀ x ∈ entries.foldl (dpRelax db s) acc, x ∈ acc ∨
        ∃ e0 ∈ entries,
          x = (e0.1 + valorOf db s, e0.2.1 + tempoOf db s, e0.2.2 ++ [s]) := by
  intro entries
  induction entries with
  | nil => intro acc x hx; exact Or.inl hx
  | cons e es ih =>
    intro acc x hx
    rcases ih (dpRelax db s acc e) x hx with h | ⟨e0, he0, hx'⟩
    · rcases dpRelax_mem db s acc e x h with h' | h'
      · exact Or.inl h'
      · exact Or.inr ⟨e, List.mem_cons_self _ _, h'⟩
    · exact Or.inr ⟨e0, List.mem_cons_of_mem _ he0, hx'⟩

/-! ## Challenge-3 DP invariants -/

/-- Every entry of the DP dict is realized by an actual sub-selection of
the already-processed candidates, with value key and stored time equal to
that sub-selection's sums. -/
def Sound3 (db : SkillDB) (pre : List String) (dp : DPTable3) : Prop :=
  ∀ e ∈ dp, e.2.2.Sublist pre ∧ e.1 = sumValor db e.2.2 ∧
    e.2.1 = sumTempo db e.2.2

/-- Every sub-selection of the already-processed candidates has a DP entry
at its value key whose stored time is at most the sub-selection's time. -/
def Complete3 (db : SkillDB) (pre : List String) (dp : DPTable3) : Prop :=
  ∀ sub : List String, sub.Sublist pre →
    ∃ t sk, dpLookup3 dp (sumValor db sub) = some (t, sk) ∧
      t ≤ sumTempo db sub

theorem sumValor_append (db : SkillDB) (l1 l2 : List String) :
    sumValor db (l1 ++ l2) = sumValor db l1 + sumValor db l2 := by
  simp [sumValor]

theorem sumTempo_append (db : SkillDB) (l1 l2 : List String) :
    sumTempo db (l1 ++ l2) = sumTempo db l1 + sumTempo db l2 := by
  simp [sumTempo]

theorem sumComplexidade_append (db : SkillDB) (l1 l2 : List String) :
    sumComplexidade db (l1 ++ l2)
      = sumComplexidade db l1 + sumComplexidade db l2 := by
  simp [sumComplexidade]

theorem sumValor_single (db : SkillDB) (s : String) :
    sumValor db [s] = valorOf db s := by simp [sumValor]

theorem sumTempo_single (db : SkillDB) (s : String) :
    sumTempo db [s] = tempoOf db s := by simp [sumTempo]

theorem sumValor_sublist_le (db : SkillDB) {l1 l2 : List String}
    (h : l1.Sublist l2) : sumValor db l1 ≤ sumValor db l2 :=
  List.Sublist.sum_le_sum (h.map (valorOf db)) (fun _ _ => Nat.zero_le _)

theorem sumTempo_sublist_le (db : SkillDB) {l1 l2 : List String}
    (h : l1.Sublist l2) : sumTempo db l1 ≤ sumTempo db l2 :=
  List.Sublist.sum_le_sum (h.map (tempoOf db)) (fun _ _ => Nat.zero_le _)

theorem sumValor_perm (db : SkillDB) {l1 l2 : List String} (h : l1.Perm l2) :
    sumValor db l1 = sumValor db l2 := (h.map (valorOf db)).sum_eq

theorem sumTempo_perm (db : SkillDB) {l1 l2 : List String} (h : l1.Perm l2) :
    sumTempo db l1 = sumTempo db l2 := (h.map (tempoOf db)).sum_eq

theorem Sound3_step (db : SkillDB) (s : String) (pre : List String)
    (dp : DPTable3) (hs : Sound3 db pre dp) :
    Sound3 db (pre ++ [s]) (dpStep3 db dp s) := by
  intro e he
  rcases foldl_dpRelax_mem db s dp dp e he with h | ⟨e0, he0, rfl⟩
  · obtain ⟨h1, h2, h3⟩ := hs e h
    exact ⟨h1.trans (List.sublist_append_left pre [s]), h2, h3⟩
  · obtain ⟨h1, h2, h3⟩ := hs e0 he0
    refine ⟨List.Sublist.append h1 (List.Sublist.refl [s]), ?_, ?_⟩
    · simp [sumValor_append, sumValor_single, h2]
    · simp [sumTempo_append, sumTempo_single, h3]

theorem Complete3_step (db : SkillDB) (s : String) (pre : List String)
    (dp : DPTable3) (hc : Complete3 db pre dp) :
    Complete3 db (pre ++ [s]) (dpStep3 db dp s) := by
  intro sub hsub
  obtain ⟨l1, l2, rfl, hl1, hl2⟩ := List.sublist_append_iff.mp hsub
  have hl2' : l2 = [] ∨ l2 = [s] := by
    cases hl2 with
    | cons _ h => left; exact List.sublist_nil.mp h
    | cons₂ _ h => right; rw [List.sublist_nil.mp h]
  rcases hl2' with rfl | rfl
  · rw [List.append_nil]
    obtain ⟨t, sk, hlk, hle⟩ := hc l1 hl1
    obtain ⟨t', sk', hlk', hle'⟩ := foldl_dpRelax_mono db s dp dp _ t sk hlk
    exact ⟨t', sk', hlk', hle'.trans hle⟩
  · obtain ⟨t0, sk0, hlk0, hle0⟩ := hc l1 hl1
    have hmem : (sumValor db l1, t0, sk0) ∈ dp := dpLookup3_mem dp _ t0 sk0 hlk0
    obtain ⟨t', sk', hlk', hle'⟩ :=
      foldl_dpRelax_processes db s dp dp (sumValor db l1, t0, sk0) hmem
    refine ⟨t', sk', ?_, ?_⟩
    · rwa [sumValor_append, sumValor_single]
    · rw [sumTempo_append, sumTempo_single]
      exact hle'.trans (Nat.add_le_add_right hle0 _)

theorem runDP3_aux_inv (db : SkillDB) :
    ∀ (l pre : List String) (dp : DPTable3),
      Sound3 db pre dp → Complete3 db pre dp →
      Sound3 db (pre ++ l) (l.foldl (dpStep3 db) dp) ∧
        Complete3 db (pre ++ l) (l.foldl (dpStep3 db) dp) := by
  intro l
  induction l with
  | nil => intro pre dp hs hc; rw [List.append_nil]; exact ⟨hs, hc⟩
  | cons s rest ih =>
    intro pre dp hs hc
    have h := ih (pre ++ [s]) (dpStep3 db dp s)
      (Sound3_step db s pre dp hs) (Complete3_step db s pre dp hc)
    rw [List.append_assoc, List.singleton_append] at h
    exact h

theorem runDP3_sound (db : SkillDB) (basic : List String) :
    Sound3 db basic (runDP3 db basic) := by
  have h := runDP3_aux_inv db basic [] [(0, 0, [])]
    (by
      intro e he
      simp only [List.mem_singleton] at he
      subst he
      exact ⟨List.Sublist.refl [], rfl, rfl⟩)
    (by
      intro sub hsub
      rw [List.sublist_nil.mp hsub]
      exact ⟨0, [], rfl, le_refl _⟩)
  rw [List.nil_append] at h
  exact h.1

theorem runDP3_complete (db : SkillDB) (basic : List String) :
    Complete3 db basic (runDP3 db basic) := by
  have h := runDP3_aux_inv db basic [] [(0, 0, [])]
    (by
      intro e he
      simp only [List.mem_singleton] at he
      subst he
      exact ⟨List.Sublist.refl [], rfl, rfl⟩)
    (by
      intro sub hsub
      rw [List.sublist_nil.mp hsub]
      exact ⟨0, [], rfl, le_refl _⟩)
  rw [List.nil_append] at h
  exact h.2

/-! ## Challenge-3 solver characterizations -/

theorem optimal_dp_some_char (db : SkillDB) (basic : List String)
    (minAdapt : ℕ) (r : SubsetResult)
    (h : optimal_solution_dp db basic minAdapt = some r) :
    (r.selected.Sublist basic ∧ minAdapt ≤ sumValor db r.selected ∧
      r.total_value = sumValor db r.selected ∧
      r.total_time = sumTempo db r.selected) ∧
    (∀ sub : List String, sub.Sublist basic → minAdapt ≤ sumValor db sub →
      r.total_time ≤ sumTempo db sub) := by
  unfold optimal_solution_dp at h
  rcases hscan : dpScan minAdapt (runDP3 db basic) with _ | ⟨v, t, sk⟩
  · rw [hscan] at h; exact absurd h (by simp)
  · rw [hscan] at h
    obtain rfl := Option.some_inj.mp h
    have hmem := minFold_some_mem _ _ (runDP3 db basic) none (v, t, sk) hscan
    rcases hmem with ⟨hmem, hq⟩ | hbad
    · have hq' : minAdapt ≤ v := of_decide_eq_true hq
      obtain ⟨hsub, hv, ht⟩ := runDP3_sound db basic (v, t, sk) hmem
      constructor
      · exact ⟨hsub, hv ▸ hq', hv, ht⟩
      · intro sub hsubl hval
        obtain ⟨t0, sk0, hlk0, hle0⟩ := runDP3_complete db basic sub hsubl
        have hmem0 : (sumValor db sub, t0, sk0) ∈ runDP3 db basic :=
          dpLookup3_mem _ _ _ _ hlk0
        obtain ⟨e, he, hle⟩ := minFold_min
          (fun e : DPEntry3 => decide (minAdapt ≤ e.1))
          (fun e : DPEntry3 => e.2.1) (runDP3 db basic) none
          (sumValor db sub, t0, sk0) hmem0 (by simpa using hval)
        have he' : dpScan minAdapt (runDP3 db basic) = some e := he
        rw [hscan] at he'
        obtain rfl := Option.some_inj.mp he'
        exact le_trans hle hle0
    · exact absurd hbad (by simp)

theorem optimal_dp_none_char (db : SkillDB) (basic : List String)
    (minAdapt : ℕ) (h : optimal_solution_dp db basic minAdapt = none) :
    ∀ sub : List String, sub.Sublist basic → sumValor db sub < minAdapt := by
  unfold optimal_solution_dp at h
  rcases hscan : dpScan minAdapt (runDP3 db basic) with _ | ⟨v, t, sk⟩
  · intro sub hsub
    obtain ⟨_, hall⟩ := minFold_none _ _ (runDP3 db basic) none hscan
    obtain ⟨t0, sk0, hlk0, _⟩ := runDP3_complete db basic sub hsub
    have hmem0 : (sumValor db sub, t0, sk0) ∈ runDP3 db basic :=
      dpLookup3_mem _ _ _ _ hlk0
    have := hall _ hmem0
    simpa using this
  · rw [hscan] at h; exact absurd h (by simp)

theorem optimal_dp_none_intro (db : SkillDB) (basic : List String)
    (minAdapt : ℕ)
    (h : ∀ sub : List String, sub.Sublist basic → sumValor db sub < minAdapt) :
    optimal_solution_dp db basic minAdapt = none := by
  unfold optimal_solution_dp
  have hscan : dpScan minAdapt (runDP3 db basic) = none := by
    unfold dpScan
    apply minFold_id_of_no_qual
    intro e he
    obtain ⟨hsub, hv, _⟩ := runDP3_sound db basic e he
    simp only [decide_eq_false_iff_not, not_le]
    exact hv ▸ h _ hsub
  rw [hscan]

theorem bfCombos_mem (basic : List String) (sub : List String) :
    sub ∈ bfCombos basic ↔ sub.Sublist basic ∧ sub ≠ [] := by
  unfold bfCombos
  rw [List.mem_flatMap]
  constructor
  · rintro ⟨k, hk, hsub⟩
    obtain ⟨hs, hlen⟩ := List.mem_sublistsLen.mp hsub
    obtain ⟨i, _, rfl⟩ := List.mem_range'.mp hk
    refine ⟨hs, ?_⟩
    intro hnil
    rw [hnil] at hlen
    simp only [List.length_nil] at hlen
    omega
  · rintro ⟨hs, hne⟩
    refine ⟨sub.length, ?_, List.mem_sublistsLen.mpr ⟨hs, rfl⟩⟩
    rw [List.mem_range']
    refine ⟨sub.length - 1, ?_, ?_⟩
    · have h1 : 1 ≤ sub.length := by
        cases sub with
        | nil => exact absurd rfl hne
        | cons a l => simp
      have h2 : sub.length ≤ basic.length := hs.length_le
      omega
    · have h1 : 1 ≤ sub.length := by
        cases sub with
        | nil => exact absurd rfl hne
        | cons a l => simp
      omega

theorem optimal_bf_some_char (db : SkillDB) (basic : List String)
    (minAdapt : ℕ) (r : SubsetResult)
    (h : optimal_solution_bruteforce db basic minAdapt = some r) :
    (r.selected.Sublist basic ∧ r.selected ≠ [] ∧
      minAdapt ≤ sumValor db r.selected ∧
      r.total_value = sumValor db r.selected ∧
      r.total_time = sumTempo db r.selected) ∧
    (∀ sub : List String, sub.Sublist basic → sub ≠ [] →
      minAdapt ≤ sumValor db sub → r.total_time ≤ sumTempo db sub) := by
  unfold optimal_solution_bruteforce at h
  rcases hscan : bfScan db minAdapt (bfCombos basic) with _ | sk
  · rw [hscan] at h; exact absurd h (by simp)
  · rw [hscan] at h
    obtain rfl := Option.some_inj.mp h
    have hmem := minFold_some_mem _ _ (bfCombos basic) none sk hscan
    rcases hmem with ⟨hmem, hq⟩ | hbad
    · have hq' : minAdapt ≤ sumValor db sk := of_decide_eq_true hq
      obtain ⟨hsub, hne⟩ := (bfCombos_mem basic sk).mp hmem
      constructor
      · exact ⟨hsub, hne, hq', rfl, rfl⟩
      · intro sub hsubl hnil hval
        have hmem0 : sub ∈ bfCombos basic := (bfCombos_mem basic sub).mpr
          ⟨hsubl, hnil⟩
        obtain ⟨e, he, hle⟩ := minFold_min
          (fun l : List String => decide (minAdapt ≤ sumValor db l))
          (sumTempo db) (bfCombos basic) none sub hmem0
          (by simpa using hval)
        have he' : bfScan db minAdapt (bfCombos basic) = some e := he
        rw [hscan] at he'
        obtain rfl := Option.some_inj.mp he'
        exact hle
    · exact absurd hbad (by simp)

theorem optimal_bf_none_char (db : SkillDB) (basic : List String)
    (minAdapt : ℕ)
    (h : optimal_solution_bruteforce db basic minAdapt = none) :
    ∀ sub : List String, sub.Sublist basic → sub ≠ [] →
      sumValor db sub < minAdapt := by
  unfold optimal_solution_bruteforce at h
  rcases hscan : bfScan db minAdapt (bfCombos basic) with _ | sk
  · intro sub hsub hne
    obtain ⟨_, hall⟩ := minFold_none _ _ (bfCombos basic) none hscan
    have := hall sub ((bfCombos_mem basic sub).mpr ⟨hsub, hne⟩)
    simpa using this
  · rw [hscan] at h; exact absurd h (by simp)

theorem optimal_bf_none_intro (db : SkillDB) (basic : List String)
    (minAdapt : ℕ)
    (h : ∀ sub : List String, sub.Sublist basic → sub ≠ [] →
      sumValor db sub < minAdapt) :
    optimal_solution_bruteforce db basic minAdapt = none := by
  unfold optimal_solution_bruteforce
  have hscan : bfScan db minAdapt (bfCombos basic) = none := by
    unfold bfScan
    apply minFold_id_of_no_qual
    intro sub hsub
    obtain ⟨hs, hne⟩ := (bfCombos_mem basic sub).mp hsub
    simp only [decide_eq_false_iff_not, not_le]
    exact h sub hs hne
  rw [hscan]

/-! ## Greedy-loop lemmas -/

theorem sumValor_cons (db : SkillDB) (s : String) (l : List String) :
    sumValor db (s :: l) = valorOf db s + sumValor db l := by simp [sumValor]

theorem sumTempo_cons (db : SkillDB) (s : String) (l : List String) :
    sumTempo db (s :: l) = tempoOf db s + sumTempo db l := by simp [sumTempo]

theorem greedyLoop_char (db : SkillDB) (minAdapt : ℕ) :
    ∀ (l sel : List String) (tv tt : ℕ),
      tv = sumValor db sel → tt = sumTempo db sel →
      ∃ p : List String, p.Sublist l ∧
        greedyLoop db minAdapt l sel tv tt =
          (sel ++ p, sumValor db (sel ++ p), sumTempo db (sel ++ p)) := by
  intro l
  induction l with
  | nil =>
    intro sel tv tt htv htt
    exact ⟨[], List.Sublist.refl [], by simp [greedyLoop, htv, htt]⟩
  | cons s rest ih =>
    intro sel tv tt htv htt
    by_cases hbr : minAdapt ≤ tv + valorOf db s
    · refine ⟨[s], by simp, ?_⟩
      simp only [greedyLoop, hbr, if_true]
      simp [sumValor_append, sumValor_single, sumTempo_append,
        sumTempo_single, htv, htt]
    · obtain ⟨p', hp', heq⟩ := ih (sel ++ [s]) (tv + valorOf db s)
        (tt + tempoOf db s)
        (by rw [sumValor_append, sumValor_single, htv])
        (by rw [sumTempo_append, sumTempo_single, htt])
      refine ⟨s :: p', List.Sublist.cons₂ s hp', ?_⟩
      simp only [greedyLoop, hbr, if_false]
      rw [heq, List.append_assoc, List.singleton_append]

theorem greedyLoop_reach (db : SkillDB) (minAdapt : ℕ) :
    ∀ (l sel : List String) (tv tt : ℕ),
      minAdapt ≤ tv + sumValor db l →
      minAdapt ≤ (greedyLoop db minAdapt l sel tv tt).2.1 := by
  intro l
  induction l with
  | nil =>
    intro sel tv tt h
    simpa [greedyLoop, sumValor] using h
  | cons s rest ih =>
    intro sel tv tt h
    by_cases hbr : minAdapt ≤ tv + valorOf db s
    · simp [greedyLoop, hbr]
    · simp only [greedyLoop, hbr, if_false]
      apply ih
      rw [sumValor_cons] at h
      omega

theorem greedyLoop_nobreak (db : SkillDB) (minAdapt : ℕ) :
    ∀ (l sel : List String) (tv tt : ℕ),
      tv + sumValor db l < minAdapt →
      greedyLoop db minAdapt l sel tv tt =
        (sel ++ l, tv + sumValor db l, tt + sumTempo db l) := by
  intro l
  induction l with
  | nil =>
    intro sel tv tt _
    simp [greedyLoop, sumValor, sumTempo]
  | cons s rest ih =>
    intro sel tv tt h
    have hbr : ¬ minAdapt ≤ tv + valorOf db s := by
      rw [sumValor_cons] at h
      omega
    simp only [greedyLoop, hbr, if_false]
    rw [ih (sel ++ [s]) _ _ (by rw [sumValor_cons] at h; omega),
      List.append_assoc, List.singleton_append, sumValor_cons, sumTempo_cons]
    simp [Nat.add_assoc]

/-! ## Claims about gs_challenge3.py -/

/-- C3: for every candidate list and threshold on which `optimal_solution_dp`
returns a solution, the `total_time` of the DP solution is at most the
`total_time` of the selection returned by `greedy_solution` on the same
inputs. -/
theorem dp_total_time_le_greedy_total_time (db : SkillDB)
    (basic : List String) (minAdapt : ℕ) (sol : SubsetResult)
    (h : optimal_solution_dp db basic minAdapt = some sol) :
    sol.total_time ≤ (greedy_solution db basic minAdapt).total_time := by
  obtain ⟨⟨hsub, hval, _, _⟩, hmin⟩ :=
    optimal_dp_some_char db basic minAdapt sol h
  have hperm : (sortedByScore db basic).Perm basic :=
    List.perm_insertionSort _ basic
  have hsums : sumValor db (sortedByScore db basic) = sumValor db basic :=
    sumValor_perm db hperm
  have hbasic : minAdapt ≤ sumValor db basic :=
    le_trans hval (sumValor_sublist_le db hsub)
  obtain ⟨p, hp, heq⟩ :=
    greedyLoop_char db minAdapt (sortedByScore db basic) [] 0 0 rfl rfl
  have hreach : minAdapt ≤
      (greedyLoop db minAdapt (sortedByScore db basic) [] 0 0).2.1 :=
    greedyLoop_reach db minAdapt _ [] 0 0
      (by rw [Nat.zero_add, hsums]; exact hbasic)
  rw [heq] at hreach
  simp only [List.nil_append] at hreach
  have hsp : p.Subperm basic := hp.subperm.trans hperm.subperm
  obtain ⟨l', hl'p, hl'sub⟩ := hsp
  have hv' : minAdapt ≤ sumValor db l' := by
    rw [sumValor_perm db hl'p]; exact hreach
  have hmin' := hmin l' hl'sub hv'
  have hgt : (greedy_solution db basic minAdapt).total_time
      = sumTempo db p := by
    simp [greedy_solution, heq]
  rw [hgt, ← sumTempo_perm db hl'p]
  exact hmin'

/-- C3 witness: on the literal counterexample data with threshold 16 the DP
solution (time 10) beats the greedy one. -/
theorem dp_total_time_le_greedy_total_time_witness :
    (⟨"Ótimo (DP)", ["A"], 16, 10, 1⟩ : SubsetResult).total_time ≤
      (greedy_solution COUNTEREXAMPLE_DB ["A", "B", "C"] 16).total_time :=
  dp_total_time_le_greedy_total_time COUNTEREXAMPLE_DB ["A", "B", "C"] 16 _
    (by decide)

/-- C4 counterexample: with an empty candidate list and threshold 0 the DP
returns the empty selection (value level 0 meets the threshold) while the
brute force, which only enumerates subsets of size at least one, returns
none — so the two do not agree on every candidate list and threshold. -/
theorem dp_bruteforce_disagree_threshold_zero :
    optimal_solution_dp COUNTEREXAMPLE_DB [] 0
        = some ⟨"Ótimo (DP)", [], 0, 0, 0⟩ ∧
      optimal_solution_bruteforce COUNTEREXAMPLE_DB [] 0 = none := by
  constructor <;> decide

/-- C4 (amended): for every candidate list and every threshold of at least 1,
`optimal_solution_dp` and `optimal_solution_bruteforce` agree: either both
return none, or both return solutions of the same minimal `total_time`. -/
theorem dp_bruteforce_agree_of_pos_threshold (db : SkillDB)
    (basic : List String) (minAdapt : ℕ) (h : 1 ≤ minAdapt) :
    (optimal_solution_dp db basic minAdapt = none ↔
      optimal_solution_bruteforce db basic minAdapt = none) ∧
    (∀ r1 r2, optimal_solution_dp db basic minAdapt = some r1 →
      optimal_solution_bruteforce db basic minAdapt = some r2 →
      r1.total_time = r2.total_time) := by
  constructor
  · constructor
    · intro hdp
      exact optimal_bf_none_intro db basic minAdapt
        (fun sub hs _ => optimal_dp_none_char db basic minAdapt hdp sub hs)
    · intro hbf
      apply optimal_dp_none_intro
      intro sub hs
      by_cases hne : sub = []
      · subst hne
        simpa [sumValor] using h
      · exact optimal_bf_none_char db basic minAdapt hbf sub hs hne
  · intro r1 r2 h1 h2
    obtain ⟨⟨hs1, hv1, _, ht1⟩, hm1⟩ :=
      optimal_dp_some_char db basic minAdapt r1 h1
    obtain ⟨⟨hs2, hne2, hv2, _, ht2⟩, hm2⟩ :=
      optimal_bf_some_char db basic minAdapt r2 h2
    have hne1 : r1.selected ≠ [] := by
      intro hz
      rw [hz] at hv1
      simp [sumValor] at hv1
      omega
    have hle1 : r1.total_time ≤ r2.total_time := by
      have := hm1 r2.selected hs2 hv2
      rw [← ht2] at this
      exact this
    have hle2 : r2.total_time ≤ r1.total_time := by
      have := hm2 r1.selected hs1 hne1 hv1
      rw [← ht1] at this
      exact this
    exact le_antisymm hle1 hle2

/-- C4 witness: on the literal counterexample data with threshold 16 both
exact solvers agree (both some, equal minimal time 10). -/
theorem dp_bruteforce_agree_of_pos_threshold_witness :
    (1 ≤ 16) ∧
    ((optimal_solution_dp COUNTEREXAMPLE_DB ["A", "B", "C"] 16 = none ↔
       optimal_solution_bruteforce COUNTEREXAMPLE_DB ["A", "B", "C"] 16
         = none) ∧
     (∀ r1 r2,
       optimal_solution_dp COUNTEREXAMPLE_DB ["A", "B", "C"] 16 = some r1 →
       optimal_solution_bruteforce COUNTEREXAMPLE_DB ["A", "B", "C"] 16
         = some r2 →
       r1.total_time = r2.total_time)) :=
  ⟨by decide,
    dp_bruteforce_agree_of_pos_threshold COUNTEREXAMPLE_DB ["A", "B", "C"] 16
      (by decide)⟩

/-- C5: on the literal three-candidate input A(16,10), B(12,7), C(8,4) with
threshold 16, `greedy_solution` selects C then B with total time 11, while
`optimal_solution_dp` selects A alone with total time 10. -/
theorem literal_counterexample_scenario :
    (greedy_solution COUNTEREXAMPLE_DB ["A", "B", "C"] 16).selected
        = ["C", "B"] ∧
    (greedy_solution COUNTEREXAMPLE_DB ["A", "B", "C"] 16).total_time = 11 ∧
    optimal_solution_dp COUNTEREXAMPLE_DB ["A", "B", "C"] 16
      = some ⟨"Ótimo (DP)", ["A"], 16, 10, 1⟩ := by
  refine ⟨?_, ?_, by decide⟩
  · simp only [greedy_solution, sortedByScore_counterexample]
    decide
  · simp only [greedy_solution, sortedByScore_counterexample]
    decide

/-- C10: when the summed value of all candidates is below the threshold,
`greedy_solution` still returns a normal record containing every candidate,
with `total_value` below the threshold and no failure indicator, whereas
`optimal_solution_dp` returns none on the same input. -/
theorem greedy_no_infeasibility_signal (db : SkillDB) (basic : List String)
    (minAdapt : ℕ) (h : sumValor db basic < minAdapt) :
    (∀ s ∈ basic, s ∈ (greedy_solution db basic minAdapt).selected) ∧
    (greedy_solution db basic minAdapt).total_value = sumValor db basic ∧
    (greedy_solution db basic minAdapt).total_value < minAdapt ∧
    optimal_solution_dp db basic minAdapt = none := by
  have hperm : (sortedByScore db basic).Perm basic :=
    List.perm_insertionSort _ basic
  have hsums : sumValor db (sortedByScore db basic) = sumValor db basic :=
    sumValor_perm db hperm
  have hnb := greedyLoop_nobreak db minAdapt (sortedByScore db basic) [] 0 0
    (by rw [Nat.zero_add, hsums]; exact h)
  have hsel : (greedy_solution db basic minAdapt).selected
      = sortedByScore db basic := by
    simp [greedy_solution, hnb]
  have hval : (greedy_solution db basic minAdapt).total_value
      = sumValor db basic := by
    simp [greedy_solution, hnb, hsums]
  refine ⟨?_, hval, by rw [hval]; exact h, ?_⟩
  · intro s hs
    rw [hsel]
    exact hperm.mem_iff.mpr hs
  · exact optimal_dp_none_intro db basic minAdapt
      (fun sub hsub => lt_of_le_of_lt (sumValor_sublist_le db hsub) h)

/-- C10 witness: the three counterexample candidates sum to value 36, below
threshold 100, so greedy returns them all while the DP returns none. -/
theorem greedy_no_infeasibility_signal_witness :
    sumValor COUNTEREXAMPLE_DB ["A", "B", "C"] < 100 ∧
    ((∀ s ∈ ["A", "B", "C"],
        s ∈ (greedy_solution COUNTEREXAMPLE_DB ["A", "B", "C"] 100).selected) ∧
     (greedy_solution COUNTEREXAMPLE_DB ["A", "B", "C"] 100).total_value
        = sumValor COUNTEREXAMPLE_DB ["A", "B", "C"] ∧
     (greedy_solution COUNTEREXAMPLE_DB ["A", "B", "C"] 100).total_value
        < 100 ∧
     optimal_solution_dp COUNTEREXAMPLE_DB ["A", "B", "C"] 100 = none) :=
  ⟨by decide,
    greedy_no_infeasibility_signal COUNTEREXAMPLE_DB ["A", "B", "C"] 100
      (by decide)⟩

/-! ## Desafio 1 — ImprovedMaxValuePathDP (gs_challenge1.py)

The worklist closure (`_get_required_skills`), Kahn's queue
(`_topological_sort`) and the DP are embedded with explicit fuel for the
non-structural loops; the fuel values are chosen to dominate the number
of iterations the Python loops perform (each skill enters the `required`
set at most once, so the worklist pops at most `1 + Σ |Pre_Reqs|` items,
and each skill is appended to Kahn's queue at most once, so it pops at
most `2·|required|` items).  Python's `set` iteration order is
unspecified; `required` is modelled in insertion order, and every theorem
proved below is independent of that order. -/

/-- Total number of prerequisite references in the database. -/
def totalPrereqLen (db : SkillDB) : ℕ :=
  (db.map (fun p => p.2.preReqs.length)).sum

/-- The worklist loop of `_get_required_skills`: pop from the end of
`to_process` (modelled with the head of the list as the top of the stack,
so `extend(prereqs)` pushes the reversed prerequisite list), skip skills
already collected, otherwise collect and push the prerequisites. -/
def getRequiredAux (db : SkillDB) :
    ℕ → List String → List String → List String
  | 0, required, _ => required
  | fuel + 1, required, toProcess =>
    match toProcess with
    | [] => required
    | s :: rest =>
      if s ∈ required then getRequiredAux db fuel required rest
      else getRequiredAux db fuel (required ++ [s])
        ((preReqsOf db s).reverse ++ rest)

/-- `ImprovedMaxValuePathDP._get_required_skills`. -/
def get_required_skills (db : SkillDB) (target : String) : List String :=
  getRequiredAux db (1 + db.length + totalPrereqLen db) [] [target]

/-- `in_degree[s]`, with the junk value -1 for a missing key (never hit:
Kahn only queries keys of the in-degree dict). -/
def degLookup (deg : List (String × ℤ)) (s : String) : ℤ :=
  (deg.lookup s).getD (-1)

/-- `in_degree[s] -= 1` (in-place decrement of the first matching entry). -/
def degDecAt : List (String × ℤ) → String → List (String × ℤ)
  | [], _ => []
  | (k, d) :: rest, s =>
    if k = s then (k, d - 1) :: rest else (k, d) :: degDecAt rest s

/-- The body of Kahn's inner loop for one `skill` of `required` after
popping `current`: decrement the in-degree when `current` is one of the
skill's prerequisites, and enqueue the skill when its in-degree hits 0. -/
def kahnRelax (db : SkillDB) (current : String)
    (acc : List (String × ℤ) × List String) (skill : String) :
    List (String × ℤ) × List String :=
  if current ∈ preReqsOf db skill then
    let deg := degDecAt acc.1 skill
    if degLookup deg skill = 0 then (deg, acc.2 ++ [skill]) else (deg, acc.2)
  else acc

/-- Kahn's queue loop of `_topological_sort`. -/
def kahnAux (db : SkillDB) (required : List String) :
    ℕ → List (String × ℤ) → List String → List String → List String
  | 0, _, _, result => result
  | fuel + 1, deg, queue, result =>
    match queue with
    | [] => result
    | current :: qrest =>
      let step := required.foldl (kahnRelax db current) (deg, qrest)
      kahnAux db required fuel step.1 step.2 (result ++ [current])

/-- `ImprovedMaxValuePathDP._topological_sort`: Kahn's algorithm over the
required skills, with in-degrees counting only prerequisites that are
themselves required. -/
def topological_sort (db : SkillDB) (target : String) : List String :=
  let required := get_required_skills db target
  let deg := required.map (fun s =>
    (s, (((preReqsOf db s).filter (fun p => decide (p ∈ required))).length : ℤ)))
  let queue := required.filter (fun s => decide (degLookup deg s = 0))
  kahnAux db required (2 * required.length + 1) deg queue []

/-- One step of the deduplicating accumulation of
`_calculate_minimum_path`: skip skills already acquired, otherwise add
their time and complexity. -/
def minPathFold (db : SkillDB) (acc : List String × ℕ × ℕ) (s : String) :
    List String × ℕ × ℕ :=
  if s ∈ acc.1 then acc
  else (acc.1 ++ [s], acc.2.1 + tempoOf db s, acc.2.2 + complexidadeOf db s)

/-- `ImprovedMaxValuePathDP._calculate_minimum_path`: (time, complexity)
summed over the topological order of the required skills. -/
def calculate_minimum_path (db : SkillDB) (target : String) : ℕ × ℕ :=
  ((topological_sort db target).foldl (minPathFold db) ([], 0, 0)).2

/-- `self.min_feasible_time` (computed in the constructor). -/
def min_feasible_time (db : SkillDB) (target : String) : ℕ :=
  (calculate_minimum_path db target).1

/-- `self.min_feasible_complexity` (computed in the constructor). -/
def min_feasible_complexity (db : SkillDB) (target : String) : ℕ :=
  (calculate_minimum_path db target).2

/-- One DP record `{'valor': .., 'skills': frozenset, 'path': [..]}` of
`solve_deterministic`. -/
structure PState where
  valor : ℕ
  skills : Finset String
  path : List String
deriving DecidableEq

/-- The DP dict `dp[(t, c)] = [states]`, in dict insertion order. -/
abbrev DPTable1 := List ((ℕ × ℕ) × List PState)

/-- `new_dp[(t, c)].append(state)` — defaultdict append: extends the
bucket of an existing key in place, otherwise creates the bucket at the
end. -/
def tabAppend : DPTable1 → ℕ × ℕ → PState → DPTable1
  | [], key, st => [(key, [st])]
  | (k, sts) :: rest, key, st =>
    if k = key then (k, sts ++ [st]) :: rest
    else (k, sts) :: tabAppend rest key st

/-- The transition attempted for one existing state when processing one
skill of the topological order: require the prerequisites to be owned and
the skill to be new, and admit the successor only within both budgets. -/
def stateTransition (db : SkillDB) (maxT maxC : ℕ) (s : String)
    (key : ℕ × ℕ) (acc : DPTable1) (st : PState) : DPTable1 :=
  if (∀ p ∈ preReqsOf db s, p ∈ st.skills) ∧ s ∉ st.skills then
    let nt := key.1 + tempoOf db s
    let nc := key.2 + complexidadeOf db s
    if nt ≤ maxT ∧ nc ≤ maxC then
      tabAppend acc (nt, nc)
        ⟨st.valor + valorOf db s, insert s st.skills, st.path ++ [s]⟩
    else acc
  else acc

/-- Transitions from every state of one bucket of the old dict. -/
def bucketTransitions (db : SkillDB) (maxT maxC : ℕ) (s : String)
    (acc : DPTable1) (bucket : (ℕ × ℕ) × List PState) : DPTable1 :=
  bucket.2.foldl (stateTransition db maxT maxC s bucket.1) acc

/-- `_prune_dominated_states`: keep buckets of at most `cap` states,
otherwise sort by value descending (Python's stable sort, modelled by the
stable insertion sort) and keep the top `cap`. -/
def pruneStates (cap : ℕ) (states : List PState) : List PState :=
  if states.length ≤ cap then states
  else (states.insertionSort (fun a b => b.valor ≤ a.valor)).take cap

/-- Processing one skill of the topological order: copy the old dict,
append all admissible transitions, then prune every bucket. -/
def solveStep (db : SkillDB) (maxT maxC cap : ℕ) (dp : DPTable1)
    (s : String) : DPTable1 :=
  (dp.foldl (bucketTransitions db maxT maxC s) dp).map
    (fun b => (b.1, pruneStates cap b.2))

/-- The full DP loop of `solve_deterministic`, seeded with the empty state
at key (0, 0). -/
def runDP1 (db : SkillDB) (target : String) (maxT maxC cap : ℕ) : DPTable1 :=
  (topological_sort db target).foldl (solveStep db maxT maxC cap)
    [((0, 0), [⟨0, ∅, []⟩])]

/-- The two result shapes of `solve_deterministic`: the success dict with
path and recomputed totals, or the failure dict whose message interpolates
the target and the two budgets. -/
inductive PathResult where
  | success (path : List String)
      (total_value total_time total_complexity : ℕ)
  | failure (target : String) (max_time max_complexity : ℕ)
deriving Repr, DecidableEq

/-- The `success` field of the result dict. -/
def PathResult.isSuccess : PathResult → Bool
  | .success .. => true
  | .failure .. => false

/-- The final scan of `solve_deterministic`: among all states holding the
target, keep the first one of strictly maximal value (`best_value` starts
at -1, so the first qualifying state is always taken). -/
def bestStateScan (target : String) (best : Option PState) (st : PState) :
    Option PState :=
  if target ∈ st.skills then
    match best with
    | none => some st
    | some b => if b.valor < st.valor then some st else best
  else best

/-- Scan every state of every bucket of the final dict. -/
def bestSolution (target : String) (dp : DPTable1) : Option PState :=
  dp.foldl (fun best b => b.2.foldl (bestStateScan target) best) none

/-- `ImprovedMaxValuePathDP.solve_deterministic`. -/
def solve_deterministic (db : SkillDB) (target : String)
    (maxT maxC cap : ℕ) : PathResult :=
  match bestSolution target (runDP1 db target maxT maxC cap) with
  | some st => .success st.path st.valor (sumTempo db st.path)
      (sumComplexidade db st.path)
  | none => .failure target maxT maxC

/-- The message of `check_feasibility`: either the viable message or the
too-strict message interpolating the two minimums. -/
inductive FeasibilityMsg where
  | viable
  | tooStrict (min_time min_complexity : ℕ)
deriving Repr, DecidableEq

/-- `ImprovedMaxValuePathDP.check_feasibility`. -/
def check_feasibility (db : SkillDB) (target : String) (maxT maxC : ℕ) :
    Bool × FeasibilityMsg :=
  if min_feasible_time db target ≤ maxT ∧
      min_feasible_complexity db target ≤ maxC then
    (true, .viable)
  else
    (false, .tooStrict (min_feasible_time db target)
      (min_feasible_complexity db target))

example : get_required_skills SKILLS_DATABASE "S6"
    = ["S6", "S4", "S1", "H2", "H1", "H3"] := by decide

example : topological_sort SKILLS_DATABASE "S6"
    = ["H2", "H1", "H3", "S1", "S4", "S6"] := by decide

example : min_feasible_time SKILLS_DATABASE "S6" = 440 := by decide

example : min_feasible_complexity SKILLS_DATABASE "S6" = 31 := by decide

example : solve_deterministic SKILLS_DATABASE "S6" 0 0 50
    = .failure "S6" 0 0 := by decide

/-- A two-skill database used to exercise the success path of the DP. -/
def TWO_SKILL_DB : SkillDB :=
  [("X", ⟨"X", 5, 10, 1, []⟩), ("Y", ⟨"Y", 7, 20, 2, ["X"]⟩)]

example : solve_deterministic TWO_SKILL_DB "Y" 100 10 50
    = .success ["X", "Y"] 12 30 3 := by decide

/-! ## Challenge-1 invariants -/

/-- A path is a valid topological linearization: every prerequisite of the
skill at position `i` appears among the first `i` positions. -/
def ValidPath (db : SkillDB) (l : List String) : Prop :=
  ∀ (i : ℕ) (hi : i < l.length), ∀ p ∈ preReqsOf db l[i], p ∈ l.take i

theorem ValidPath_nil (db : SkillDB) : ValidPath db [] := by
  intro i hi
  simp at hi

theorem ValidPath_append (db : SkillDB) (l : List String) (s : String)
    (hl : ValidPath db l) (hs : ∀ p ∈ preReqsOf db s, p ∈ l) :
    ValidPath db (l ++ [s]) := by
  intro i hi p hp
  rw [List.length_append, List.length_singleton] at hi
  by_cases hcase : i < l.length
  · rw [List.getElem_append_left hcase] at hp
    rw [List.take_append_of_le_length (le_of_lt hcase)]
    exact hl i hcase p hp
  · have hieq : i = l.length := by omega
    subst hieq
    rw [List.getElem_concat_length _ _ _ rfl] at hp
    rw [List.take_append_of_le_length (le_refl _), List.take_length]
    exact hs p hp

theorem ValidPath_closed (db : SkillDB) (l : List String)
    (h : ValidPath db l) : ∀ s ∈ l, ∀ p ∈ preReqsOf db s, p ∈ l := by
  intro s hs p hp
  obtain ⟨i, hi, rfl⟩ := List.getElem_of_mem hs
  exact List.take_subset i l (h i hi p hp)

/-- The invariant carried by every state of every bucket of the DP dict:
the path is a duplicate-free valid linearization whose element set is the
`skills` frozenset, the stored value and the bucket key are the sums over
the path, and the key respects both budgets. -/
def StateOK (db : SkillDB) (maxT maxC : ℕ) (key : ℕ × ℕ) (st : PState) :
    Prop :=
  st.path.Nodup ∧ st.path.toFinset = st.skills ∧ ValidPath db st.path ∧
  st.valor = sumValor db st.path ∧ key.1 = sumTempo db st.path ∧
  key.2 = sumComplexidade db st.path ∧ key.1 ≤ maxT ∧ key.2 ≤ maxC

/-- `StateOK` for every state of every bucket. -/
def TableOK (db : SkillDB) (maxT maxC : ℕ) (dp : DPTable1) : Prop :=
  ∀ b ∈ dp, ∀ st ∈ b.2, StateOK db maxT maxC b.1 st

theorem tabAppend_mem : ∀ (dp : DPTable1) (key : ℕ × ℕ) (st : PState),
    ∀ b ∈ tabAppend dp key st, ∀ x ∈ b.2,
      (∃ b0 ∈ dp, b0.1 = b.1 ∧ x ∈ b0.2) ∨ (x = st ∧ b.1 = key) := by
  intro dp
  induction dp with
  | nil =>
    intro key st b hb x hx
    simp only [tabAppend, List.mem_singleton] at hb
    subst hb
    simp only [List.mem_singleton] at hx
    exact Or.inr ⟨hx, rfl⟩
  | cons e rest ih =>
    intro key st b hb x hx
    obtain ⟨k, sts⟩ := e
    by_cases hk : k = key
    · simp only [tabAppend, hk, if_true] at hb
      rcases List.mem_cons.mp hb with rfl | hb'
      · rcases List.mem_append.mp hx with hx' | hx'
        · exact Or.inl ⟨(k, sts), List.mem_cons_self _ _, hk ▸ rfl, hx'⟩
        · simp only [List.mem_singleton] at hx'
          exact Or.inr ⟨hx', rfl⟩
      · exact Or.inl ⟨b, List.mem_cons_of_mem _ hb', rfl, hx⟩
    · simp only [tabAppend, hk, if_false] at hb
      rcases List.mem_cons.mp hb with rfl | hb'
      · exact Or.inl ⟨(k, sts), List.mem_cons_self _ _, rfl, hx⟩
      · rcases ih key st b hb' x hx with ⟨b0, hb0, hkey, hxin⟩ | h
        · exact Or.inl ⟨b0, List.mem_cons_of_mem _ hb0, hkey, hxin⟩
        · exact Or.inr h

theorem sumComplexidade_single (db : SkillDB) (s : String) :
    sumComplexidade db [s] = complexidadeOf db s := by simp [sumComplexidade]

theorem stateTransition_tableOK (db : SkillDB) (maxT maxC : ℕ) (s : String)
    (key : ℕ × ℕ) (acc : DPTable1) (st0 : PState)
    (hacc : TableOK db maxT maxC acc)
    (hst0 : StateOK db maxT maxC key st0) :
    TableOK db maxT maxC (stateTransition db maxT maxC s key acc st0) := by
  unfold stateTransition
  by_cases hc : (∀ p ∈ preReqsOf db s, p ∈ st0.skills) ∧ s ∉ st0.skills
  · rw [if_pos hc]
    by_cases hbud : key.1 + tempoOf db s ≤ maxT ∧
        key.2 + complexidadeOf db s ≤ maxC
    · simp only [hbud, and_true, if_true, hbud.1, hbud.2]
      intro b hb x hx
      rcases tabAppend_mem acc _ _ b hb x hx with ⟨b0, hb0, hkey, hxin⟩ |
        ⟨rfl, hkey⟩
      · have h0 := hacc b0 hb0 x hxin
        rwa [hkey] at h0
      · obtain ⟨hnd, hfin, hvp, hval, ht, hc2, _, _⟩ := hst0
        have hsl : s ∉ st0.path := by
          intro hmem
          exact hc.2 (hfin ▸ List.mem_toFinset.mpr hmem)
        refine ⟨?_, ?_, ?_, ?_, ?_, ?_, ?_, ?_⟩
        · simp [List.nodup_append, hnd, hsl]
        · rw [List.toFinset_append]
          show st0.path.toFinset ∪ [s].toFinset = insert s st0.skills
          rw [← hfin, Finset.insert_eq, Finset.union_comm]
          rfl
        · refine ValidPath_append db st0.path s hvp ?_
          intro p hp
          exact List.mem_toFinset.mp (hfin ▸ hc.1 p hp)
        · rw [sumValor_append, sumValor_single, hval]
        · rw [hkey, sumTempo_append, sumTempo_single, ht]
        · rw [hkey, sumComplexidade_append, sumComplexidade_single, hc2]
        · rw [hkey]; exact hbud.1
        · rw [hkey]; exact hbud.2
    · rw [if_neg hbud]
      exact hacc
  · rw [if_neg hc]
    exact hacc

theorem pruneStates_subset (cap : ℕ) (l : List PState) :
    ∀ x ∈ pruneStates cap l, x ∈ l := by
  intro x hx
  unfold pruneStates at hx
  by_cases hlen : l.length ≤ cap
  · rwa [if_pos hlen] at hx
  · rw [if_neg hlen] at hx
    exact (List.perm_insertionSort _ l).mem_iff.mp (List.take_subset cap _ hx)

theorem solveStep_tableOK (db : SkillDB) (maxT maxC cap : ℕ)
    (dp : DPTable1) (s : String) (h : TableOK db maxT maxC dp) :
    TableOK db maxT maxC (solveStep db maxT maxC cap dp s) := by
  unfold solveStep
  have htrans : TableOK db maxT maxC
      (dp.foldl (bucketTransitions db maxT maxC s) dp) := by
    apply foldl_inv (P := TableOK db maxT maxC) _ dp dp h
    intro acc bucket hbucket hacc
    unfold bucketTransitions
    apply foldl_inv (P := TableOK db maxT maxC) _ bucket.2 acc hacc
    intro acc' st0 hst0 hacc'
    exact stateTransition_tableOK db maxT maxC s bucket.1 acc' st0 hacc'
      (h bucket hbucket st0 hst0)
  intro b hb x hx
  obtain ⟨b0, hb0, rfl⟩ := List.mem_map.mp hb
  exact htrans b0 hb0 x (pruneStates_subset cap b0.2 x hx)

theorem runDP1_tableOK (db : SkillDB) (target : String) (maxT maxC cap : ℕ) :
    TableOK db maxT maxC (runDP1 db target maxT maxC cap) := by
  unfold runDP1
  apply foldl_inv (P := TableOK db maxT maxC)
  · intro b hb x hx
    simp only [List.mem_singleton] at hb
    subst hb
    simp only [List.mem_singleton] at hx
    subst hx
    exact ⟨List.nodup_nil, by simp, ValidPath_nil db, rfl, rfl, rfl,
      Nat.zero_le _, Nat.zero_le _⟩
  · intro dp s _ hdp
    exact solveStep_tableOK db maxT maxC cap dp s hdp

theorem bestStateScan_some (target : String) (best : Option PState)
    (st r : PState) (h : bestStateScan target best st = some r) :
    (r = st ∧ target ∈ st.skills) ∨ best = some r := by
  unfold bestStateScan at h
  by_cases hmem : target ∈ st.skills
  · rw [if_pos hmem] at h
    cases best with
    | none => exact Or.inl ⟨(Option.some_inj.mp h).symm, hmem⟩
    | some b =>
      have h' : (if b.valor < st.valor then some st else some b) = some r := h
      by_cases hv : b.valor < st.valor
      · rw [if_pos hv] at h'
        exact Or.inl ⟨(Option.some_inj.mp h').symm, hmem⟩
      · rw [if_neg hv] at h'
        exact Or.inr h'
  · rw [if_neg hmem] at h
    exact Or.inr h

theorem foldl_bestStateScan_some (target : String) :
    ∀ (l : List PState) (best : Option PState) (r : PState),
      l.foldl (bestStateScan target) best = some r →
      (r ∈ l ∧ target ∈ r.skills) ∨ best = some r := by
  intro l
  induction l with
  | nil => intro best r h; exact Or.inr h
  | cons st sts ih =>
    intro best r h
    rcases ih _ r h with ⟨hin, hmem⟩ | h'
    · exact Or.inl ⟨List.mem_cons_of_mem _ hin, hmem⟩
    · rcases bestStateScan_some target best st r h' with ⟨rfl, hmem⟩ | h''
      · exact Or.inl ⟨List.mem_cons_self _ _, hmem⟩
      · exact Or.inr h''

theorem bestSolution_aux_some (target : String) :
    ∀ (dp : DPTable1) (best : Option PState) (r : PState),
      dp.foldl (fun best b => b.2.foldl (bestStateScan target) best) best
        = some r →
      (∃ b ∈ dp, r ∈ b.2 ∧ target ∈ r.skills) ∨ best = some r := by
  intro dp
  induction dp with
  | nil => intro best r h; exact Or.inr h
  | cons b bs ih =>
    intro best r h
    rcases ih _ r h with ⟨b0, hb0, hr⟩ | h'
    · exact Or.inl ⟨b0, List.mem_cons_of_mem _ hb0, hr⟩
    · rcases foldl_bestStateScan_some target b.2 best r h' with ⟨hin, hmem⟩ | h''
      · exact Or.inl ⟨b, List.mem_cons_self _ _, hin, hmem⟩
      · exact Or.inr h''

theorem bestSolution_some (target : String) (dp : DPTable1) (r : PState)
    (h : bestSolution target dp = some r) :
    (∃ b ∈ dp, r ∈ b.2) ∧ target ∈ r.skills := by
  rcases bestSolution_aux_some target dp none r h with ⟨b, hb, hr, hmem⟩ | h'
  · exact ⟨⟨b, hb, hr⟩, hmem⟩
  · exact absurd h' (by simp)

/-- `x` is in the prerequisite closure of `root`: it is `root` itself or a
(transitive) prerequisite of a skill in the closure. -/
inductive Reaches (db : SkillDB) (root : String) : String → Prop where
  | refl : Reaches db root root
  | step : ∀ {s p : String}, Reaches db root s → p ∈ preReqsOf db s →
      Reaches db root p

theorem getRequiredAux_reaches (db : SkillDB) (target : String) :
    ∀ (fuel : ℕ) (required toProcess : List String),
      (∀ x ∈ required, Reaches db target x) →
      (∀ x ∈ toProcess, Reaches db target x) →
      ∀ x ∈ getRequiredAux db fuel required toProcess,
        Reaches db target x := by
  intro fuel
  induction fuel with
  | zero => intro required toProcess hr _ x hx; exact hr x hx
  | succ fuel ih =>
    intro required toProcess hr hp x hx
    cases toProcess with
    | nil => exact hr x (by simpa [getRequiredAux] using hx)
    | cons s rest =>
      by_cases hmem : s ∈ required
      · rw [show getRequiredAux db (fuel + 1) required (s :: rest)
            = getRequiredAux db fuel required rest by
          simp [getRequiredAux, hmem]] at hx
        exact ih required rest hr
          (fun y hy => hp y (List.mem_cons_of_mem _ hy)) x hx
      · rw [show getRequiredAux db (fuel + 1) required (s :: rest)
            = getRequiredAux db fuel (required ++ [s])
                ((preReqsOf db s).reverse ++ rest) by
          simp [getRequiredAux, hmem]] at hx
        refine ih (required ++ [s]) _ ?_ ?_ x hx
        · intro y hy
          rcases List.mem_append.mp hy with hy' | hy'
          · exact hr y hy'
          · simp only [List.mem_singleton] at hy'
            subst hy'
            exact hp y (List.mem_cons_self _ _)
        · intro y hy
          rcases List.mem_append.mp hy with hy' | hy'
          · exact Reaches.step (hp s (List.mem_cons_self _ _))
              (List.mem_reverse.mp hy')
          · exact hp y (List.mem_cons_of_mem _ hy')

theorem get_required_reaches (db : SkillDB) (target : String) :
    ∀ x ∈ get_required_skills db target, Reaches db target x := by
  apply getRequiredAux_reaches db target _ [] [target]
  · intro x hx; simp at hx
  · intro x hx
    simp only [List.mem_singleton] at hx
    subst hx
    exact Reaches.refl

theorem kahnRelax_queue_subset (db : SkillDB) (current : String)
    (required : List String) (acc : List (String × ℤ) × List String)
    (skill : String) (hskill : skill ∈ required)
    (hacc : ∀ y ∈ acc.2, y ∈ required) :
    ∀ y ∈ (kahnRelax db current acc skill).2, y ∈ required := by
  intro y hy
  by_cases hc : current ∈ preReqsOf db skill
  · by_cases hz : degLookup (degDecAt acc.1 skill) skill = 0
    · simp only [kahnRelax, hc, if_true, hz] at hy
      rcases List.mem_append.mp hy with hy' | hy'
      · exact hacc y hy'
      · simp only [List.mem_singleton] at hy'
        exact hy' ▸ hskill
    · simp only [kahnRelax, hc, if_true, hz, if_false] at hy
      exact hacc y hy
  · simp only [kahnRelax, hc, if_false] at hy
    exact hacc y hy

theorem kahnAux_subset (db : SkillDB) (required : List String) :
    ∀ (fuel : ℕ) (deg : List (String × ℤ)) (queue result : List String),
      (∀ y ∈ queue, y ∈ required) → (∀ y ∈ result, y ∈ required) →
      ∀ y ∈ kahnAux db required fuel deg queue result, y ∈ required := by
  intro fuel
  induction fuel with
  | zero => intro deg queue result _ hres y hy; exact hres y hy
  | succ fuel ih =>
    intro deg queue result hq hres y hy
    cases queue with
    | nil => exact hres y (by simpa [kahnAux] using hy)
    | cons current qrest =>
      rw [show kahnAux db required (fuel + 1) deg (current :: qrest) result
          = kahnAux db required fuel
              (required.foldl (kahnRelax db current) (deg, qrest)).1
              (required.foldl (kahnRelax db current) (deg, qrest)).2
              (result ++ [current]) from rfl] at hy
      refine ih _ _ _ ?_ ?_ y hy
      · have : ∀ st : List (String × ℤ) × List String,
            (∀ z ∈ st.2, z ∈ required) →
            ∀ z ∈ (required.foldl (kahnRelax db current) st).2,
              z ∈ required := by
          intro st hst
          apply foldl_inv
            (P := fun acc : List (String × ℤ) × List String =>
              ∀ z ∈ acc.2, z ∈ required) _ required st hst
          intro acc skill hskill hacc
          exact kahnRelax_queue_subset db current required acc skill hskill
            hacc
        exact this (deg, qrest)
          (fun z hz => hq z (List.mem_cons_of_mem _ hz))
      · intro z hz
        rcases List.mem_append.mp hz with hz' | hz'
        · exact hres z hz'
        · simp only [List.mem_singleton] at hz'
          exact hz' ▸ hq current (List.mem_cons_self _ _)

theorem topological_sort_reaches (db : SkillDB) (target : String) :
    ∀ x ∈ topological_sort db target, Reaches db target x := by
  intro x hx
  have hsub : x ∈ get_required_skills db target := by
    refine kahnAux_subset db (get_required_skills db target) _ _ _ _
      ?_ ?_ x hx
    · intro y hy
      exact List.mem_of_mem_filter hy
    · intro y hy; simp at hy
  exact get_required_reaches db target x hsub

theorem reaches_subset_closed (db : SkillDB) (target : String)
    (S : Finset String) (htarget : target ∈ S)
    (hclosed : ∀ s ∈ S, ∀ p ∈ preReqsOf db s, p ∈ S) :
    ∀ x, Reaches db target x → x ∈ S := by
  intro x hx
  induction hx with
  | refl => exact htarget
  | step hr hp ih => exact hclosed _ ih _ hp

theorem minPathFold_char (db : SkillDB) :
    ∀ (l acq : List String) (t c : ℕ),
      acq.Nodup → t = sumTempo db acq → c = sumComplexidade db acq →
      ∃ acq' : List String, acq'.Nodup ∧
        (∀ y, y ∈ acq' ↔ y ∈ acq ∨ y ∈ l) ∧
        l.foldl (minPathFold db) (acq, t, c) =
          (acq', sumTempo db acq', sumComplexidade db acq') := by
  intro l
  induction l with
  | nil =>
    intro acq t c hnd ht hc
    exact ⟨acq, hnd, by simp, by simp [ht, hc]⟩
  | cons s rest ih =>
    intro acq t c hnd ht hc
    by_cases hmem : s ∈ acq
    · obtain ⟨acq', hnd', hiff, heq⟩ := ih acq t c hnd ht hc
      refine ⟨acq', hnd', ?_, ?_⟩
      · intro y
        rw [hiff y, List.mem_cons]
        constructor
        · rintro (hy | hy)
          · exact Or.inl hy
          · exact Or.inr (Or.inr hy)
        · rintro (hy | rfl | hy)
          · exact Or.inl hy
          · exact Or.inl hmem
          · exact Or.inr hy
      · rw [show (s :: rest).foldl (minPathFold db) (acq, t, c)
            = rest.foldl (minPathFold db) (acq, t, c) by
          simp [minPathFold, hmem]]
        exact heq
    · obtain ⟨acq', hnd', hiff, heq⟩ := ih (acq ++ [s])
        (t + tempoOf db s) (c + complexidadeOf db s)
        (by simp [List.nodup_append, hnd, hmem])
        (by rw [sumTempo_append, sumTempo_single, ht])
        (by rw [sumComplexidade_append, sumComplexidade_single, hc])
      refine ⟨acq', hnd', ?_, ?_⟩
      · intro y
        rw [hiff y, List.mem_append, List.mem_singleton, List.mem_cons]
        constructor
        · rintro ((hy | rfl) | hy)
          · exact Or.inl hy
          · exact Or.inr (Or.inl rfl)
          · exact Or.inr (Or.inr hy)
        · rintro (hy | rfl | hy)
          · exact Or.inl (Or.inl hy)
          · exact Or.inl (Or.inr rfl)
          · exact Or.inr hy
      · rw [show (s :: rest).foldl (minPathFold db) (acq, t, c)
            = rest.foldl (minPathFold db)
                (acq ++ [s], t + tempoOf db s, c + complexidadeOf db s) by
          simp [minPathFold, hmem]]
        exact heq

theorem calculate_minimum_path_le (db : SkillDB) (target : String)
    (S : Finset String) (htarget : target ∈ S)
    (hclosed : ∀ s ∈ S, ∀ p ∈ preReqsOf db s, p ∈ S) :
    min_feasible_time db target ≤ S.sum (tempoOf db) ∧
      min_feasible_complexity db target ≤ S.sum (complexidadeOf db) := by
  obtain ⟨acq', hnd, hiff, heq⟩ := minPathFold_char db
    (topological_sort db target) [] 0 0 List.nodup_nil rfl rfl
  have hsubS : acq'.toFinset ⊆ S := by
    intro y hy
    rw [List.mem_toFinset] at hy
    rcases (hiff y).mp hy with hy' | hy'
    · simp at hy'
    · exact reaches_subset_closed db target S htarget hclosed y
        (topological_sort_reaches db target y hy')
  have h1 : min_feasible_time db target = sumTempo db acq' := by
    unfold min_feasible_time calculate_minimum_path
    rw [heq]
  have h2 : min_feasible_complexity db target = sumComplexidade db acq' := by
    unfold min_feasible_complexity calculate_minimum_path
    rw [heq]
  constructor
  · rw [h1, show sumTempo db acq' = acq'.toFinset.sum (tempoOf db) from
      (List.sum_toFinset _ hnd).symm]
    exact Finset.sum_le_sum_of_subset hsubS
  · rw [h2, show sumComplexidade db acq'
        = acq'.toFinset.sum (complexidadeOf db) from
      (List.sum_toFinset _ hnd).symm]
    exact Finset.sum_le_sum_of_subset hsubS

/-! ## Claims about gs_challenge1.py -/

/-- C1: for every target skill and budget pair, if the minimum feasible
time exceeds the time budget or the minimum feasible complexity exceeds
the complexity budget — both as computed by `_calculate_minimum_path` over
the prerequisite closure of the target — then `solve_deterministic` never
returns a result with `success=true`. -/
theorem feasibility_precheck_consistency (db : SkillDB) (target : String)
    (maxT maxC cap : ℕ)
    (h : maxT < min_feasible_time db target ∨
      maxC < min_feasible_complexity db target) :
    (solve_deterministic db target maxT maxC cap).isSuccess = false := by
  unfold solve_deterministic
  rcases hbest : bestSolution target (runDP1 db target maxT maxC cap)
    with _ | st
  · rfl
  · exfalso
    obtain ⟨⟨b, hb, hst⟩, htarget⟩ := bestSolution_some target _ st hbest
    obtain ⟨hnd, hfin, hvp, _, ht, hc2, hbt, hbc⟩ :=
      runDP1_tableOK db target maxT maxC cap b hb st hst
    have htargetS : target ∈ st.path.toFinset := by
      rw [hfin]; exact htarget
    have hclosed : ∀ s ∈ st.path.toFinset, ∀ p ∈ preReqsOf db s,
        p ∈ st.path.toFinset := by
      intro s hs p hp
      rw [List.mem_toFinset] at hs ⊢
      exact ValidPath_closed db st.path hvp s hs p hp
    obtain ⟨h1, h2⟩ := calculate_minimum_path_le db target st.path.toFinset
      htargetS hclosed
    have hsum1 : st.path.toFinset.sum (tempoOf db) = sumTempo db st.path :=
      List.sum_toFinset _ hnd
    have hsum2 : st.path.toFinset.sum (complexidadeOf db)
        = sumComplexidade db st.path := List.sum_toFinset _ hnd
    rcases h with h | h
    · rw [hsum1, ← ht] at h1
      omega
    · rw [hsum2, ← hc2] at h2
      omega

/-- C1 witness: on the repository database with target S6 and zero
budgets, the minimum feasible time (440) exceeds the budget and the solver
reports failure. -/
theorem feasibility_precheck_consistency_witness :
    ((0 : ℕ) < min_feasible_time SKILLS_DATABASE "S6" ∨
      (0 : ℕ) < min_feasible_complexity SKILLS_DATABASE "S6") ∧
    (solve_deterministic SKILLS_DATABASE "S6" 0 0 50).isSuccess = false :=
  ⟨Or.inl (by decide),
    feasibility_precheck_consistency SKILLS_DATABASE "S6" 0 0 50
      (Or.inl (by decide))⟩

/-- C2: every successful result of `solve_deterministic` carries a path
that is a valid topological linearization — each skill's prerequisites all
appear at earlier positions of the same path. -/
theorem path_validity_invariant (db : SkillDB) (target : String)
    (maxT maxC cap : ℕ) (path : List String) (v t c : ℕ)
    (h : solve_deterministic db target maxT maxC cap
      = .success path v t c) :
    ValidPath db path := by
  unfold solve_deterministic at h
  rcases hbest : bestSolution target (runDP1 db target maxT maxC cap)
    with _ | st
  · rw [hbest] at h
    exact absurd h (by simp)
  · rw [hbest] at h
    injection h with h1 _ _ _
    obtain ⟨⟨b, hb, hst⟩, _⟩ := bestSolution_some target _ st hbest
    obtain ⟨_, _, hvp, _⟩ := runDP1_tableOK db target maxT maxC cap b hb st hst
    exact h1 ▸ hvp

/-- C2 witness: the successful run on the two-skill database returns the
path X, Y, which is a valid linearization. -/
theorem path_validity_invariant_witness : ValidPath TWO_SKILL_DB ["X", "Y"] :=
  path_validity_invariant TWO_SKILL_DB "Y" 100 10 50 ["X", "Y"] 12 30 3
    (by decide)

/-- C8 counterexample: on the repository database with target S6 and
budgets (0, 0), `solve_deterministic` fails, but the failure result
reports the budgets 0 and 0 — not the minimums 440 and 31 actually
required — so the claim that the infeasibility result itself reports the
required minimums is false. -/
theorem infeasible_result_reports_budgets_not_minimums :
    solve_deterministic SKILLS_DATABASE "S6" 0 0 50 = .failure "S6" 0 0 ∧
    min_feasible_time SKILLS_DATABASE "S6" = 440 ∧
    min_feasible_complexity SKILLS_DATABASE "S6" = 31 ∧
    ((440 : ℕ) ≠ 0 ∧ (31 : ℕ) ≠ 0) := by
  refine ⟨by decide, by decide, by decide, by decide, by decide⟩

/-- C8 (amended): whenever no state containing the target fits the
budgets, `solve_deterministic` returns an infeasibility result
(`success=false`) whose message reports the target and the two budgets;
the minimum time and complexity actually required are computed at
construction and exposed separately through `check_feasibility`, whose
too-strict message carries them. -/
theorem infeasibility_reporting_amended (db : SkillDB) (target : String)
    (maxT maxC cap : ℕ)
    (h : bestSolution target (runDP1 db target maxT maxC cap) = none) :
    solve_deterministic db target maxT maxC cap
        = .failure target maxT maxC ∧
    ((check_feasibility db target maxT maxC).2 = .viable ∨
      (check_feasibility db target maxT maxC).2
        = .tooStrict (min_feasible_time db target)
            (min_feasible_complexity db target)) := by
  constructor
  · unfold solve_deterministic
    rw [h]
  · unfold check_feasibility
    by_cases hc : min_feasible_time db target ≤ maxT ∧
        min_feasible_complexity db target ≤ maxC
    · rw [if_pos hc]
      exact Or.inl rfl
    · rw [if_neg hc]
      exact Or.inr rfl

/-- C8 witness: the infeasible S6 run at zero budgets. -/
theorem infeasibility_reporting_amended_witness :
    bestSolution "S6" (runDP1 SKILLS_DATABASE "S6" 0 0 50) = none ∧
    (solve_deterministic SKILLS_DATABASE "S6" 0 0 50
        = .failure "S6" 0 0 ∧
      ((check_feasibility SKILLS_DATABASE "S6" 0 0).2
          = .viable ∨
        (check_feasibility SKILLS_DATABASE "S6" 0 0).2
          = .tooStrict (min_feasible_time SKILLS_DATABASE "S6")
              (min_feasible_complexity SKILLS_DATABASE "S6"))) :=
  ⟨by decide,
    infeasibility_reporting_amended SKILLS_DATABASE "S6" 0 0 50 (by decide)⟩

/-! ## Monte Carlo layer — solve_with_uncertainty (gs_challenge1.py) -/

/-- The model of NumPy's seeded uniform stream: `np.random.seed(seed)`
followed by sequential `np.random.uniform(0.9, 1.1)` draws is a pure
function from the seed and the index of the draw to the multiplier (this
purity is exactly what seeding establishes in the source). -/
abbrev MCStream := ℕ → ℕ → ℚ

/-- One Monte Carlo trial over a fixed path: for the j-th skill of trial
number `trial`, draw number `trial * len(path) + j` of the stream scales
the skill's base value; the trial records the sum. -/
def mcTrialValue (rng : MCStream) (seed : ℕ) (db : SkillDB)
    (path : List String) (trial : ℕ) : ℚ :=
  path.enum.foldl (fun acc p =>
    acc + (valorOf db p.2 : ℚ) * rng seed (trial * path.length + p.1)) 0

/-- The sample sequence of the `n_simulations` loop of
`solve_with_uncertainty`. -/
def monteCarloSamples (rng : MCStream) (seed : ℕ) (db : SkillDB)
    (path : List String) (n : ℕ) : List ℚ :=
  (List.range n).map (mcTrialValue rng seed db path)

/-- `np.mean` over the samples. -/
def meanQ (l : List ℚ) : ℚ := l.sum / l.length

/-- The square of `np.std` (population variance); the reported standard
deviation is its square root, so equal variances give equal deviations. -/
def varQ (l : List ℚ) : ℚ :=
  ((l.map (fun x => (x - meanQ l) ^ 2)).sum) / l.length

/-- `np.min` (0 on an empty sample list, where NumPy raises). -/
def minQ : List ℚ → ℚ
  | [] => 0
  | x :: xs => xs.foldl min x

/-- `np.max` (0 on an empty sample list, where NumPy raises). -/
def maxQ : List ℚ → ℚ
  | [] => 0
  | x :: xs => xs.foldl max x

/-- The success dict of `solve_with_uncertainty`. -/
structure UncertaintyResult where
  path : List String
  deterministic_value : ℕ
  expected_value : ℚ
  variance : ℚ
  min_value : ℚ
  max_value : ℚ
  simulations : List ℚ
  total_time : ℕ
  total_complexity : ℕ
deriving DecidableEq

/-- `ImprovedMaxValuePathDP.solve_with_uncertainty`: solve
deterministically, propagate failure, otherwise reseed with `GLOBAL_SEED`
and evaluate `n` Monte Carlo trials over the deterministic path. -/
def solve_with_uncertainty (rng : MCStream) (db : SkillDB)
    (target : String) (maxT maxC cap n : ℕ) : Option UncertaintyResult :=
  match solve_deterministic db target maxT maxC cap with
  | .failure _ _ _ => none
  | .success path v t c =>
    let sims := monteCarloSamples rng GLOBAL_SEED db path n
    some ⟨path, v, meanQ sims, varQ sims, minQ sims, maxQ sims, sims, t, c⟩

theorem solve_with_uncertainty_simulations (rng : MCStream) (db : SkillDB)
    (target : String) (maxT maxC cap n : ℕ) (path : List String)
    (v t c : ℕ)
    (h : solve_deterministic db target maxT maxC cap = .success path v t c) :
    solve_with_uncertainty rng db target maxT maxC cap n
      = some ⟨path, v,
          meanQ (monteCarloSamples rng GLOBAL_SEED db path n),
          varQ (monteCarloSamples rng GLOBAL_SEED db path n),
          minQ (monteCarloSamples rng GLOBAL_SEED db path n),
          maxQ (monteCarloSamples rng GLOBAL_SEED db path n),
          monteCarloSamples rng GLOBAL_SEED db path n, t, c⟩ := by
  unfold solve_with_uncertainty
  rw [h]

/-- C6: two invocations of the Monte Carlo evaluation with the same
generator, the same seed, the same path and the same number of trials
produce identical sample sequences, and therefore identical expected
value, variance (hence standard deviation), minimum and maximum. -/
theorem monte_carlo_determinism (rng : MCStream) (seed : ℕ) (db : SkillDB)
    (path : List String) (n : ℕ) (s1 s2 : List ℚ)
    (h1 : s1 = monteCarloSamples rng seed db path n)
    (h2 : s2 = monteCarloSamples rng seed db path n) :
    s1 = s2 ∧ meanQ s1 = meanQ s2 ∧ varQ s1 = varQ s2 ∧
      minQ s1 = minQ s2 ∧ maxQ s1 = maxQ s2 := by
  subst h1
  subst h2
  exact ⟨rfl, rfl, rfl, rfl, rfl⟩

/-- C6 witness: two invocations with the global seed over the two-skill
path at 1000 trials. -/
theorem monte_carlo_determinism_witness :
    monteCarloSamples (fun _ _ => 1) GLOBAL_SEED TWO_SKILL_DB
          ["X", "Y"] 1000
        = monteCarloSamples (fun _ _ => 1) GLOBAL_SEED TWO_SKILL_DB
          ["X", "Y"] 1000 ∧
      meanQ (monteCarloSamples (fun _ _ => 1) GLOBAL_SEED TWO_SKILL_DB
          ["X", "Y"] 1000)
        = meanQ (monteCarloSamples (fun _ _ => 1) GLOBAL_SEED TWO_SKILL_DB
          ["X", "Y"] 1000) ∧
      varQ (monteCarloSamples (fun _ _ => 1) GLOBAL_SEED TWO_SKILL_DB
          ["X", "Y"] 1000)
        = varQ (monteCarloSamples (fun _ _ => 1) GLOBAL_SEED TWO_SKILL_DB
          ["X", "Y"] 1000) ∧
      minQ (monteCarloSamples (fun _ _ => 1) GLOBAL_SEED TWO_SKILL_DB
          ["X", "Y"] 1000)
        = minQ (monteCarloSamples (fun _ _ => 1) GLOBAL_SEED TWO_SKILL_DB
          ["X", "Y"] 1000) ∧
      maxQ (monteCarloSamples (fun _ _ => 1) GLOBAL_SEED TWO_SKILL_DB
          ["X", "Y"] 1000)
        = maxQ (monteCarloSamples (fun _ _ => 1) GLOBAL_SEED TWO_SKILL_DB
          ["X", "Y"] 1000) :=
  monte_carlo_determinism (fun _ _ => 1) GLOBAL_SEED TWO_SKILL_DB
    ["X", "Y"] 1000 _ _ rfl rfl

/-! ## Desafio 5 — ImprovedSkillRecommender (gs_challenge5.py) -/

/-- The market scenarios of `_define_market_scenarios`:
(name, probability weight, per-skill value multipliers).  The float
literals 0.4, 0.35, 0.25, 1.5, 1.3, 1.2, 1.4, 1.6 are exact in `ℚ`. -/
def market_scenarios : List (String × ℚ × List (String × ℚ)) :=
  [ ("AI_Boom", 2/5, [("S6", 3/2), ("S4", 13/10), ("H11", 6/5)])
  , ("Cloud_Native", 7/20, [("S7", 7/5), ("S9", 13/10), ("S8", 6/5)])
  , ("Security_First", 1/4, [("S5", 8/5), ("H12", 13/10)])
  ]

/-- `discount_factor` = 0.95. -/
def discount_factor : ℚ := 19/20

/-- The synergy bonus of `_calculate_expected_value`: 1 plus 0.05 per
prerequisite of the skill already held. -/
def synergyBonus (db : SkillDB) (skill : String)
    (current : List String) : ℚ :=
  1 + (1/20) *
    (((preReqsOf db skill).filter (fun p => decide (p ∈ current))).length : ℚ)

/-- The scenario loop of `_calculate_expected_value` before the temporal
discount: `Σ prob × base_value × multiplier × synergy_bonus` (multiplier
defaults to 1.0 for skills without an entry). -/
def scenarioValueSum (db : SkillDB) (skill : String)
    (current : List String) : ℚ :=
  market_scenarios.foldl (fun acc sc =>
    acc + sc.2.1 * ((valorOf db skill : ℚ) * ((sc.2.2.lookup skill).getD 1)
      * synergyBonus db skill current)) 0

/-- `ImprovedSkillRecommender._calculate_expected_value`: the scenario sum
times `discount_factor ** years_ahead`, with `years_ahead : int`. -/
def calculate_expected_value (db : SkillDB) (skill : String)
    (current : List String) (years_ahead : ℕ) : ℚ :=
  scenarioValueSum db skill current * discount_factor ^ years_ahead

/-- The exponent `recommend_with_dp` passes to the discount:
`years_ahead = new_t / 2000` followed by `int(years_ahead)` — the
truncated number of whole years (exact: ℕ division). -/
def dpYearsExponent (new_t : ℕ) : ℕ := new_t / 2000

/-- The expected value a skill contributes when acquired at cumulative
time `new_t` in the DP transition of `recommend_with_dp`. -/
def dpTransitionValue (db : SkillDB) (skills_set : List String)
    (skill : String) (new_t : ℕ) : ℚ :=
  calculate_expected_value db skill skills_set (dpYearsExponent new_t)

/-- Modelled from the spec: the transition value with the *fractional*
discount exponent `years_elapsed = time_used / (hours_per_year constant)`
that the spec describes ("the exponent is the fractional number of years
elapsed, not a rounded or truncated value"), which needs real
exponentiation; the code instead truncates the exponent to an `int`. -/
noncomputable def specTransitionValue (db : SkillDB)
    (skills_set : List String) (skill : String) (new_t : ℕ) : ℝ :=
  (scenarioValueSum db skill skills_set : ℝ)
    * (19 / 20 : ℝ) ^ ((new_t : ℝ) / 2000)

theorem scenarioValueSum_H1 :
    scenarioValueSum SKILLS_DATABASE "H1" [] = 10 := by
  have hv : valorOf SKILLS_DATABASE "H1" = 10 := rfl
  have hp : preReqsOf SKILLS_DATABASE "H1" = [] := rfl
  have m1 : ([("S6", (3:ℚ)/2), ("S4", 13/10), ("H11", 6/5)]).lookup "H1"
      = none := rfl
  have m2 : ([("S7", (7:ℚ)/5), ("S9", 13/10), ("S8", 6/5)]).lookup "H1"
      = none := rfl
  have m3 : ([("S5", (8:ℚ)/5), ("H12", 13/10)]).lookup "H1" = none := rfl
  norm_num [scenarioValueSum, market_scenarios, synergyBonus, hv, hp,
    m1, m2, m3]

/-- C9 counterexample: a skill acquired at cumulative time 1000 (half a
year) is not discounted at all — the exponent the code uses is
`int(1000/2000) = 0`, so the H1 contribution equals its undiscounted
scenario value 10, while the fractional-exponent value the claim
describes is `10 · 0.95^(1/2) < 10`; in particular the exponent used is
not the fractional 1000/2000 = 1/2. -/
theorem discount_exponent_truncated_counterexample :
    dpTransitionValue SKILLS_DATABASE [] "H1" 1000 = 10 ∧
    specTransitionValue SKILLS_DATABASE [] "H1" 1000 < 10 ∧
    (dpYearsExponent 1000 : ℚ) ≠ (1000 : ℚ) / 2000 := by
  refine ⟨?_, ?_, ?_⟩
  · unfold dpTransitionValue calculate_expected_value dpYearsExponent
    norm_num [scenarioValueSum_H1]
  · unfold specTransitionValue
    rw [scenarioValueSum_H1]
    push_cast
    have hexp : (1000 : ℝ) / 2000 = 1 / 2 := by norm_num
    rw [hexp]
    have h1 : (19 / 20 : ℝ) ^ ((1 : ℝ) / 2) < 1 :=
      Real.rpow_lt_one (by norm_num) (by norm_num) (by norm_num)
    linarith
  · norm_num [dpYearsExponent]

/-- C9 (amended): in the recommender DP, the expected value a skill
contributes when acquired at cumulative time t is multiplied by
`discount_factor` raised to the truncated whole number of years elapsed —
the exponent is `⌊t / 2000⌋` (Python `int(t / 2000)`), not the fractional
number of years. -/
theorem discount_exponent_is_whole_years (db : SkillDB)
    (skills_set : List String) (skill : String) (t : ℕ) :
    dpTransitionValue db skills_set skill t
        = scenarioValueSum db skill skills_set
          * discount_factor ^ (Nat.floor ((t : ℚ) / 2000)) ∧
      dpYearsExponent t = Nat.floor ((t : ℚ) / 2000) := by
  have hfl : Nat.floor ((t : ℚ) / 2000) = t / 2000 := by
    rw [show ((2000 : ℚ)) = ((2000 : ℕ) : ℚ) by norm_num, Nat.floor_div_nat]
    simp
  constructor
  · unfold dpTransitionValue calculate_expected_value dpYearsExponent
    rw [hfl]
  · unfold dpYearsExponent
    rw [hfl]

/-! ## GraphValidator (gs_graph_validation.py)

The recursive DFS of `_detect_cycles` is embedded with a fuel argument
consumed on every recursive call (a bound of twice the number of nodes
plus prerequisite references dominates the Python recursion, which visits
each node at most once and scans each edge at most once).  A lookup of a
colour for an identifier absent from the database models the Python
`KeyError` as an `Except.error`. -/

/-- `self.all_skill_ids` (dict keys, insertion order). -/
def all_skill_ids (db : SkillDB) : List String := db.map Prod.fst

/-- `GraphValidator._check_orphan_prereqs`: every (skill, prerequisite)
pair whose prerequisite is not a database key, in iteration order. -/
def check_orphan_prereqs (db : SkillDB) : List (String × String) :=
  db.flatMap (fun e =>
    (e.2.preReqs.filter (fun p => decide (p ∉ all_skill_ids db))).map
      (fun p => (e.1, p)))

/-- The colour dict of `_detect_cycles` (0 white, 1 gray, 2 black). -/
abbrev ColorMap := List (String × ℕ)

/-- The parent dict of `_detect_cycles` (values may be `None`). -/
abbrev ParentMap := List (String × Option String)

/-- Dict assignment for the colour map (all keys are preinitialized, so
the append branch is never reached on the source's inputs). -/
def cmSet : ColorMap → String → ℕ → ColorMap
  | [], k, v => [(k, v)]
  | (k', v') :: rest, k, v =>
    if k' = k then (k, v) :: rest else (k', v') :: cmSet rest k v

/-- Dict assignment for the parent map. -/
def pmSet : ParentMap → String → Option String → ParentMap
  | [], k, v => [(k, v)]
  | (k', v') :: rest, k, v =>
    if k' = k then (k, v) :: rest else (k', v') :: pmSet rest k v

/-- The cycle-reconstruction `while` loop of `_detect_cycles`: walk the
parent chain from `node` until a falsy parent (None or the empty string)
or the back-edge head `prereq`, inserting each parent at index 1 of the
cycle list.  (A missing parent key, impossible on the source's inputs, is
treated as falsy.) -/
def rebuildCycle (parent : ParentMap) :
    ℕ → String → String → List String → List String
  | 0, _, _, cycle => cycle
  | fuel + 1, prereq, current, cycle =>
    match (parent.lookup current).getD none with
    | none => cycle
    | some par =>
      if par = "" ∨ par = prereq then cycle
      else rebuildCycle parent fuel prereq par (cycle.insertIdx 1 par)

/-- The body of `dfs_visit` after the node has been coloured gray: the
`for prereq in prereqs` loop.  A gray prerequisite yields the
reconstructed cycle; a white prerequisite gets its parent set and is
visited recursively (colouring it gray on entry and black when its own
loop finishes); a missing prerequisite raises `KeyError`.  Fuel is
consumed on every recursive call, making the recursion structural. -/
def dfsGo (db : SkillDB) :
    ℕ → String → List String → ColorMap → ParentMap →
      Except String (Bool × List String × ColorMap × ParentMap)
  | 0, _, _, _, _ => .error "fuel exhausted"
  | fuel + 1, node, prereqs, color, parent =>
    match prereqs with
    | [] => .ok (false, [], cmSet color node 2, parent)
    | p :: rest =>
      match color.lookup p with
      | none => .error ("KeyError: " ++ p)
      | some cp =>
        if cp = 1 then
          .ok (true,
            rebuildCycle parent (color.length + 1) p node [p, node] ++ [p],
            color, parent)
        else if cp = 0 then
          match dfsGo db fuel p (preReqsOf db p) (cmSet color p 1)
              (pmSet parent p (some node)) with
          | .error e => .error e
          | .ok (found, path, color', parent') =>
            if found then .ok (true, path, color', parent')
            else dfsGo db fuel node rest color' parent'
        else dfsGo db fuel node rest color parent

/-- `dfs_visit(node)`: colour the node gray and run its prerequisite
loop. -/
def dfsVisitTop (db : SkillDB) (node : String) (color : ColorMap)
    (parent : ParentMap) :
    Except String (Bool × List String × ColorMap × ParentMap) :=
  dfsGo db (2 * (db.length + totalPrereqLen db) + 2) node
    (preReqsOf db node) (cmSet color node 1) parent

/-- The outer loop of `_detect_cycles`: visit every white node. -/
def detectCyclesLoop (db : SkillDB) :
    List String → ColorMap → ParentMap →
      Except String (Bool × List String)
  | [], _, _ => .ok (false, [])
  | s :: rest, color, parent =>
    match color.lookup s with
    | none => .error ("KeyError: " ++ s)
    | some c =>
      if c = 0 then
        match dfsVisitTop db s color parent with
        | .error e => .error e
        | .ok (found, path, color', parent') =>
          if found then .ok (true, path)
          else detectCyclesLoop db rest color' parent'
      else detectCyclesLoop db rest color parent

/-- `GraphValidator._detect_cycles`. -/
def detect_cycles (db : SkillDB) : Except String (Bool × List String) :=
  detectCyclesLoop db (all_skill_ids db)
    ((all_skill_ids db).map (fun s => (s, 0)))
    ((all_skill_ids db).map (fun s => (s, none)))

/-- The inner decrement of the validator's Kahn loop for one database
entry after popping `current`. -/
def vKahnRelax (current : String)
    (acc : List (String × ℤ) × List String) (e : String × Skill) :
    List (String × ℤ) × List String :=
  if current ∈ e.2.preReqs then
    let deg := degDecAt acc.1 e.1
    if degLookup deg e.1 = 0 then (deg, acc.2 ++ [e.1]) else (deg, acc.2)
  else acc

/-- The queue loop of the validator's `_topological_sort`. -/
def vKahnAux (db : SkillDB) :
    ℕ → List (String × ℤ) → List String → List String → List String
  | 0, _, _, result => result
  | fuel + 1, deg, queue, result =>
    match queue with
    | [] => result
    | current :: qrest =>
      let step := db.foldl (vKahnRelax current) (deg, qrest)
      vKahnAux db fuel step.1 step.2 (result ++ [current])

/-- `GraphValidator._topological_sort`: Kahn's algorithm over the whole
database, with in-degrees counting every prerequisite reference. -/
def validator_topological_sort (db : SkillDB) : List String :=
  let deg := db.map (fun e => (e.1, (e.2.preReqs.length : ℤ)))
  let queue := (all_skill_ids db).filter
    (fun s => decide (degLookup deg s = 0))
  vKahnAux db (2 * db.length + 1) deg queue []

/-- The report dict of `validate_graph`. -/
structure ValidationReport where
  valid : Bool
  cycles : List String
  orphan_nodes : List (String × String)
  missing_prereqs : List (String × String)
  topological_order : List String
deriving Repr, DecidableEq

/-- `GraphValidator.validate_graph`.  Mirrors the control flow of the
source exactly: the early `return False, report` statements after the
orphan finding and after the cycle finding sit inside the
`if verbose:` print blocks, so with `verbose=False` the function falls
through into `_detect_cycles` (which can raise `KeyError` on a dangling
prerequisite) and, when that returns, into the final
`return True, report`. -/
def validate_graph (db : SkillDB) (verbose : Bool) :
    Except String (Bool × ValidationReport) :=
  let r0 : ValidationReport := ⟨true, [], [], [], []⟩
  let orphans := check_orphan_prereqs db
  let r1 := if orphans ≠ [] then
    { r0 with valid := false, orphan_nodes := orphans } else r0
  if orphans ≠ [] ∧ verbose then .ok (false, r1)
  else
    match detect_cycles db with
    | .error e => .error e
    | .ok (hasCycle, cyclePath) =>
      let r2 := if hasCycle then
        { r1 with valid := false, cycles := cyclePath } else r1
      if hasCycle ∧ verbose then .ok (false, r2)
      else .ok (true,
        { r2 with topological_order := validator_topological_sort db })

/-- The one-skill database whose only skill requires a missing
prerequisite. -/
def DANGLING_DB : SkillDB := [("A", ⟨"A", 1, 1, 1, ["B"]⟩)]

/-- C7 (exhibits the code bug): on a graph with the dangling prerequisite
B, `validate_graph` with `verbose=True` reports the (A, B) pair, marks
the report invalid and halts before cycle detection as claimed — but with
`verbose=False` the early return is skipped (it sits inside the
`if verbose:` block), cycle detection runs on the dangling reference and
raises `KeyError`, so the claimed behaviour does not hold for every value
of the verbose flag. -/
theorem validator_orphan_halt_divergence :
    validate_graph DANGLING_DB true
        = .ok (false, ⟨false, [], [("A", "B")], [], []⟩) ∧
      validate_graph DANGLING_DB false = .error "KeyError: B" :=
  ⟨rfl, rfl⟩
